import Mathlib

/-!
# VSI archive filesystem handler (`port/cpl_vsil_abstract_archive.cpp`)

A shallow embedding of `VSIArchiveFilesystemHandler` and theorems about it.

* A C string is the list of its characters before the terminating NUL.
* The member `oFileList` (a `std::map` from archive path to content) is passed
  explicitly: every operation takes the cache and returns the cache it leaves.
* The virtual methods `GetPrefix`, `GetExtensions`, `CreateReader` and the
  underlying file system reached through `VSIFileManager` are fields of the
  handler record.
* Where the C code would read outside the string it holds, the embedding
  stops with `Run.outOfBounds` instead of inventing a value. The one read in
  front of a string, at line 316, is described at `endsWithSeparator`.
-/

namespace VSIArchive

/-! ## Strings and libc helpers -/

/-- A C string: its characters up to, not including, the terminating NUL. -/
abbrev CStr := List Char

/-- Outcome of running a piece of the C code. -/
inductive Run (α : Type) where
  /-- the code ran and produced a value -/
  | ok : α → Run α
  /-- the code reads a byte outside the C string it holds -/
  | outOfBounds : Run α
  /-- the iteration budget of a loop of the embedding was used up -/
  | outOfFuel : Run α
  deriving DecidableEq, Repr

/-- The two characters the handler treats as path separators. -/
def isSeparator (c : Char) : Bool := c == '/' || c == '\\'

/-- Characters of `strncmp(s, t, strlen(t)) == 0`: `t` is an initial part of `s`. -/
def startsWith : CStr → CStr → Bool
  | _, [] => true
  | [], _ :: _ => false
  | a :: s, b :: t => a == b && startsWith s t

/-- Modelled from the spec: the macro `EQUALN` (declared in `cpl_port.h`),
the case-insensitive comparison of the first `n` characters of two strings
("checked case-insensitively at every candidate boundary"). -/
def EQUALN : CStr → CStr → Nat → Bool
  | _, _, 0 => true
  | [], [], _ + 1 => true
  | [], _ :: _, _ + 1 => false
  | _ :: _, [], _ + 1 => false
  | a :: s, b :: t, n + 1 => a.toLower == b.toLower && EQUALN s t n

/-- Search of `strstr(s, needle)` from offset `i` on: offset of the first occurrence. -/
def strstrFrom (needle : CStr) : CStr → Nat → Option Nat
  | [], i => if needle = [] then some i else none
  | c :: s, i => if startsWith (c :: s) needle then some i else strstrFrom needle s (i + 1)

/-- The call `strstr(s, needle)`: offset of the first occurrence of `needle`, `none` for NULL. -/
def strstr (s needle : CStr) : Option Nat := strstrFrom needle s 0

/-- The call `strchr(s, c) != NULL` for a character `c` other than NUL. -/
def strchr (s : CStr) (c : Char) : Option Nat := strstrFrom [c] s 0

/-! ## Data model -/

/-- One entry of an archive (`VSIArchiveEntry`). -/
structure VSIArchiveEntry where
  fileName : CStr
  uncompressed_size : Nat
  bIsDir : Bool
  /-- the opaque `VSIArchiveEntryFileOffset` the reader handed out -/
  file_pos : Nat
  deriving DecidableEq, Repr

/-- The entries of one archive (`VSIArchiveContent`; `nEntries` is the length). -/
structure VSIArchiveContent where
  entries : List VSIArchiveEntry
  deriving DecidableEq, Repr

/-- What an archive reader reports about the entry under its cursor. -/
structure ReaderFile where
  fileName : CStr
  fileSize : Nat
  fileOffset : Nat
  deriving DecidableEq, Repr

/-- Modelled from the spec: the class `VSIArchiveReader` (declared in
`cpl_vsi_virtual.h`, implemented per archive format), a sequential cursor over
the entries of one archive. `files` are the entries in traversal order, `cur`
is the entry under the cursor followed by the entries after it. -/
structure VSIArchiveReader where
  files : List ReaderFile
  cur : List ReaderFile
  deriving DecidableEq, Repr

/-- Modelled from the spec: `gotoFirstEntry`, "position at the first entry;
false if the archive is empty or invalid". -/
def VSIArchiveReader.GotoFirstFile (r : VSIArchiveReader) : Bool × VSIArchiveReader :=
  match r.files with
  | [] => (false, r)
  | _ :: _ => (true, { r with cur := r.files })

/-- Modelled from the spec: `gotoNextEntry`, "advance; false at end". -/
def VSIArchiveReader.GotoNextFile (r : VSIArchiveReader) : Bool × VSIArchiveReader :=
  match r.cur with
  | _ :: g :: rest => (true, { r with cur := g :: rest })
  | _ => (false, r)

/-- Modelled from the spec: `currentEntryName`, the raw name of the current entry. -/
def VSIArchiveReader.GetFileName (r : VSIArchiveReader) : CStr :=
  match r.cur with
  | f :: _ => f.fileName
  | [] => []

/-- Modelled from the spec: `currentEntrySize`, the uncompressed size. -/
def VSIArchiveReader.GetFileSize (r : VSIArchiveReader) : Nat :=
  match r.cur with
  | f :: _ => f.fileSize
  | [] => 0

/-- Modelled from the spec: `currentEntryOffsetToken`, the positioning handle. -/
def VSIArchiveReader.GetFileOffset (r : VSIArchiveReader) : Nat :=
  match r.cur with
  | f :: _ => f.fileOffset
  | [] => 0

/-- First entry carrying the offset token `pos`, with the entries after it. -/
def seekOffset (pos : Nat) : List ReaderFile → List ReaderFile
  | [] => []
  | f :: rest => if f.fileOffset = pos then f :: rest else seekOffset pos rest

/-- Modelled from the spec: `gotoOffsetToken`, "reposition the cursor directly
at a previously obtained entry; false if invalid". -/
def VSIArchiveReader.GotoFileOffset (r : VSIArchiveReader) (pos : Nat) :
    Bool × VSIArchiveReader :=
  match seekOffset pos r.files with
  | [] => (false, r)
  | f :: rest => (true, { r with cur := f :: rest })

/-- The member `oFileList`: archive path to content, most recent insertion first. -/
abbrev FileList := List (CStr × VSIArchiveContent)

/-- The lookup `oFileList.find(archiveFilename)`. -/
def FileList.find : FileList → CStr → Option VSIArchiveContent
  | [], _ => none
  | (k, v) :: rest, a => if k = a then some v else FileList.find rest a

/-- The virtual methods of a concrete handler and the file system underneath it. -/
structure VSIArchiveFilesystemHandler where
  GetPrefix : CStr
  GetExtensions : List CStr
  /-- `CreateReader(archiveFilename)`; `none` is NULL -/
  CreateReader : CStr → Option VSIArchiveReader
  /-- `VSIFileManager::GetHandler(p)->Stat(p, &statBuf)`: `none` when it does
  not return 0, otherwise `some (VSI_ISDIR(statBuf.st_mode))` -/
  fsStat : CStr → Option Bool

/-! ## SplitFilename -/

/-- Lines 194-200: skip the handler's own path start. A path that begins with
`GetPrefix() + "/vsi"` keeps the slash in front of the chained handler. -/
def skipPrefix (h : VSIArchiveFilesystemHandler) (pszFilename : CStr) : Run CStr :=
  if startsWith pszFilename (h.GetPrefix ++ "/vsi".toList) then
    .ok (pszFilename.drop h.GetPrefix.length)
  else if h.GetPrefix.length + 1 ≤ pszFilename.length then
    .ok (pszFilename.drop (h.GetPrefix.length + 1))
  else
    .outOfBounds

/-- Lines 206-216: `nToSkip`, the length of the first listed extension found
at the start of `s` (0 when the search ends without one). -/
def matchExtension : List CStr → CStr → Nat
  | [], _ => 0
  | osExtension :: rest, s =>
    if EQUALN s osExtension osExtension.length then osExtension.length
    else matchExtension rest s

/-- Lines 222-243: `bArchiveFileExists`, a key of `oFileList`, or else a file
the underlying file system stats as not a directory. -/
def bArchiveFileExists (h : VSIArchiveFilesystemHandler) (oFileList : FileList)
    (archiveFilename : CStr) : Bool :=
  (oFileList.find archiveFilename).isSome || h.fsStat archiveFilename == some false

/-- Lines 258-261: `pszPrevSlash` walks back from offset `q` until it is at the
start of the string or on a '/'. -/
def prevSlash (s : CStr) : Nat → Nat
  | 0 => 0
  | q + 1 => if s[q + 1]? = some '/' then q + 1 else prevSlash s q

/-- Lines 252-266: the loop "Replace a/../b by b and foo/a/../b by foo/b" on
the string `s`. The copy starts `nToSkip` characters after `pszPrevDir`. That
offset is within the string whenever `nToSkip` is at most 4. For a longer
extension it can lie behind the terminator; the bytes the C code then copies
are not characters of the string (on a first pass they are outside the
`CPLStrdup` block, on a later pass they are what an earlier, longer state of
the string left there), the embedding does not keep them, and the run is
`outOfBounds`. -/
def collapsePrevDir (nToSkip : Nat) : Nat → CStr → Run CStr
  | 0, _ => .outOfFuel
  | fuel + 1, s =>
    match strstr s "/../".toList with
    | none => .ok s
    | some 0 => .ok s
    | some (p + 1) =>
      if p + 1 + nToSkip ≤ s.length then
        if prevSlash s p = 0 then
          collapsePrevDir nToSkip fuel (s.drop (p + 1 + nToSkip))
        else
          collapsePrevDir nToSkip fuel (s.take (prevSlash s p + 1) ++ s.drop (p + 1 + nToSkip))
      else
        .outOfBounds

/-- Lines 274-280: "Remove trailing slash", one character. -/
def removeTrailingSlash (s : CStr) : CStr :=
  match s.getLast? with
  | some lastC => if lastC == '\\' || lastC == '/' then s.dropLast else s
  | none => s

/-- Lines 247-280: `osFileInArchive` from `rest = pszFilename + i + nToSkip`. -/
def fileInArchive (nToSkip : Nat) (rest : CStr) : Run CStr :=
  match rest with
  | [] => .ok []
  | _ :: pszArchiveInFileName =>
    match collapsePrevDir nToSkip (pszArchiveInFileName.length + 1) pszArchiveInFileName with
    | .ok s => .ok (removeTrailingSlash s)
    | .outOfBounds => .outOfBounds
    | .outOfFuel => .outOfFuel

/-- Lines 202-288: the loop `while(pszFilename[i])`; the last argument is
`pszFilename + i`. The value is `none` for NULL, else
`(archiveFilename, osFileInArchive)`. -/
def SplitFilenameLoop (h : VSIArchiveFilesystemHandler) (oFileList : FileList)
    (pszFilename : CStr) : Nat → CStr → Run (Option (CStr × CStr))
  | _, [] => .ok none
  | i, c :: rest =>
    if matchExtension h.GetExtensions (c :: rest) ≠ 0 ∧
        bArchiveFileExists h oFileList
          (pszFilename.take (i + matchExtension h.GetExtensions (c :: rest))) = true then
      match fileInArchive (matchExtension h.GetExtensions (c :: rest))
          (pszFilename.drop (i + matchExtension h.GetExtensions (c :: rest))) with
      | .ok osFileInArchive =>
        .ok (some (pszFilename.take (i + matchExtension h.GetExtensions (c :: rest)),
          osFileInArchive))
      | .outOfBounds => .outOfBounds
      | .outOfFuel => .outOfFuel
    else
      SplitFilenameLoop h oFileList pszFilename (i + 1) rest

/-- The method `SplitFilename(pszFilename, osFileInArchive)`. -/
def SplitFilename (h : VSIArchiveFilesystemHandler) (oFileList : FileList)
    (pszFilename : CStr) : Run (Option (CStr × CStr)) :=
  match skipPrefix h pszFilename with
  | .ok s => SplitFilenameLoop h oFileList s 0 s
  | .outOfBounds => .outOfBounds
  | .outOfFuel => .outOfFuel

/-! ## GetContentOfArchive and FindFileInArchive -/

/-- Lines 127-141: the entry appended for the file under the cursor. -/
def entryOfCurrent (r : VSIArchiveReader) : VSIArchiveEntry :=
  match r.GetFileName.getLast? with
  | some lastC =>
    if lastC == '/' || lastC == '\\' then
      { fileName := r.GetFileName.dropLast, uncompressed_size := r.GetFileSize,
        bIsDir := true, file_pos := r.GetFileOffset }
    else
      { fileName := r.GetFileName, uncompressed_size := r.GetFileSize,
        bIsDir := false, file_pos := r.GetFileOffset }
  | none =>
    { fileName := r.GetFileName, uncompressed_size := r.GetFileSize,
      bIsDir := false, file_pos := r.GetFileOffset }

/-- Lines 125-147: the loop `do ... while(poReader->GotoNextFile())`, with the
entries appended so far and the reader as it is left. -/
def readEntries : Nat → VSIArchiveReader → List VSIArchiveEntry →
    Run (List VSIArchiveEntry × VSIArchiveReader)
  | 0, _, _ => .outOfFuel
  | fuel + 1, r, entries =>
    match r.GotoNextFile with
    | (true, r') => readEntries fuel r' (entries ++ [entryOfCurrent r])
    | (false, r') => .ok (entries ++ [entryOfCurrent r], r')

/-- Lines 105-111: the reader in use, the caller's if one is passed, else a
newly created one (`none`: `CreateReader` returned NULL). -/
def obtainReader (h : VSIArchiveFilesystemHandler) (archiveFilename : CStr)
    (poReader : Option VSIArchiveReader) : Option VSIArchiveReader :=
  match poReader with
  | some r => some r
  | none => h.CreateReader archiveFilename

/-- The method `GetContentOfArchive(archiveFilename, poReader)`. The value is
the content returned (`none` for NULL), the cache afterwards, and the state in
which the caller's reader is left (a reader created here is deleted). -/
def GetContentOfArchive (h : VSIArchiveFilesystemHandler) (oFileList : FileList)
    (archiveFilename : CStr) (poReader : Option VSIArchiveReader) :
    Run (Option VSIArchiveContent × FileList × Option VSIArchiveReader) :=
  match oFileList.find archiveFilename with
  | some content => .ok (some content, oFileList, poReader)
  | none =>
    match obtainReader h archiveFilename poReader with
    | none => .ok (none, oFileList, poReader)
    | some r =>
      match r.GotoFirstFile with
      | (false, r1) => .ok (none, oFileList, poReader.map fun _ => r1)
      | (true, r1) =>
        match readEntries r1.cur.length r1 [] with
        | .ok (entries, r2) =>
          .ok (some { entries := entries },
            (archiveFilename, { entries := entries }) :: oFileList,
            poReader.map fun _ => r2)
        | .outOfBounds => .outOfBounds
        | .outOfFuel => .outOfFuel

/-- Lines 170-178: the scan `for(i=0;i<content->nEntries;i++)` with `strcmp`. -/
def findEntry (fileInArchiveName : CStr) : List VSIArchiveEntry → Option VSIArchiveEntry
  | [] => none
  | e :: rest =>
    if fileInArchiveName = e.fileName then some e else findEntry fileInArchiveName rest

/-- The method `FindFileInArchive(archiveFilename, fileInArchiveName, &archiveEntry)`:
`some e` for TRUE with `*archiveEntry = e`, `none` for FALSE; a NULL
`fileInArchiveName` is `none`. -/
def FindFileInArchive (h : VSIArchiveFilesystemHandler) (oFileList : FileList)
    (archiveFilename : CStr) (fileInArchiveName : Option CStr) :
    Run (Option VSIArchiveEntry × FileList) :=
  match fileInArchiveName with
  | none => .ok (none, oFileList)
  | some name =>
    match GetContentOfArchive h oFileList archiveFilename none with
    | .ok (some content, fl, _) => .ok (findEntry name content.entries, fl)
    | .ok (none, fl, _) => .ok (none, fl)
    | .outOfBounds => .outOfBounds
    | .outOfFuel => .outOfFuel

/-! ## OpenArchiveFile -/

/-- Lines 336-339: one line `"  %s/%s/%s\n"` per entry of the content. -/
def listingLines (h : VSIArchiveFilesystemHandler) (archiveFilename : CStr) :
    List VSIArchiveEntry → CStr
  | [] => []
  | e :: rest =>
    "  ".toList ++ h.GetPrefix ++ "/".toList ++ archiveFilename ++ "/".toList ++ e.fileName ++
      "\n".toList ++ listingLines h archiveFilename rest

/-- Lines 328-340: the text handed to `CPLError` when several files are found. -/
def ambiguousMessage (h : VSIArchiveFilesystemHandler) (archiveFilename : CStr)
    (content : Option VSIArchiveContent) : CStr :=
  "Support only 1 file in archive file ".toList ++ archiveFilename ++
    " when no explicit in-archive filename is specified".toList ++
    (match content with
      | some c =>
        "\nYou could try one of the following :\n".toList ++
          listingLines h archiveFilename c.entries
      | none => [])

/-- Line 316: the test `fileName[strlen(fileName)-1] == '/' ||
fileName[strlen(fileName)-1] == '\\'`. For an empty name the byte compared is
the one in front of the characters of `osFileName`: it is not a character of
the C string but a byte of the `CPLString` object that holds it (of the
bookkeeping fields the library keeps in front of the characters, a zero byte
for an empty string), so the test is false and the flow goes on as for a name
that does not end with a separator. -/
def endsWithSeparator (fileName : CStr) : Bool :=
  match fileName.getLast? with
  | some lastC => lastC == '/' || lastC == '\\'
  | none => false

/-- Lines 305-362: `OpenArchiveFile` without an in-archive file name, on the
reader `poReader` just created. -/
def openOnlyFile (h : VSIArchiveFilesystemHandler) (oFileList : FileList)
    (archiveFilename : CStr) (poReader : VSIArchiveReader) :
    Run (Option VSIArchiveReader × FileList × Option CStr) :=
  match poReader.GotoFirstFile with
  | (false, _) => .ok (none, oFileList, none)
  | (true, r1) =>
    match (if endsWithSeparator r1.GetFileName then r1.GotoNextFile else (true, r1)) with
    | (false, _) => .ok (none, oFileList, none)
    | (true, r2) =>
      match r2.GotoNextFile with
      | (true, r3) =>
        match GetContentOfArchive h oFileList archiveFilename (some r3) with
        | .ok (content, fl, _) =>
          .ok (none, fl, some (ambiguousMessage h archiveFilename content))
        | .outOfBounds => .outOfBounds
        | .outOfFuel => .outOfFuel
      | (false, r3) =>
        match r3.GotoFirstFile with
        | (false, _) => .ok (none, oFileList, none)
        | (true, r4) =>
          if endsWithSeparator r1.GetFileName then
            match r4.GotoNextFile with
            | (false, _) => .ok (none, oFileList, none)
            | (true, r5) => .ok (some r5, oFileList, none)
          else
            .ok (some r4, oFileList, none)

/-- The method `OpenArchiveFile(archiveFilename, fileInArchiveName)`. The value
is the reader returned (`none` for NULL), the cache afterwards, and the message
passed to `CPLError`, if any. -/
def OpenArchiveFile (h : VSIArchiveFilesystemHandler) (oFileList : FileList)
    (archiveFilename : CStr) (fileInArchiveName : Option CStr) :
    Run (Option VSIArchiveReader × FileList × Option CStr) :=
  match h.CreateReader archiveFilename with
  | none => .ok (none, oFileList, none)
  | some poReader =>
    if fileInArchiveName = none ∨ fileInArchiveName = some [] then
      openOnlyFile h oFileList archiveFilename poReader
    else
      match FindFileInArchive h oFileList archiveFilename fileInArchiveName with
      | .ok (none, fl) => .ok (none, fl, none)
      | .ok (some archiveEntry, fl) =>
        if archiveEntry.bIsDir then .ok (none, fl, none)
        else
          match poReader.GotoFileOffset archiveEntry.file_pos with
          | (false, _) => .ok (none, fl, none)
          | (true, r) => .ok (some r, fl, none)
      | .outOfBounds => .outOfBounds
      | .outOfFuel => .outOfFuel

/-! ## Stat, ReadDir and the mutating operations -/

/-- The two values `Stat` stores in `st_mode`. -/
inductive StMode where
  | S_IFDIR
  | S_IFREG
  deriving DecidableEq, Repr

/-- The fields of `VSIStatBufL` that `Stat` writes. -/
structure VSIStatBufL where
  st_size : Int
  st_mode : StMode
  deriving DecidableEq, Repr

/-- The conversion `(long)n` of an unsigned 64-bit size to a signed `long` of
`longBits` bits (two's complement). -/
def castLong (longBits : Nat) (n : Nat) : Int :=
  if n % 2 ^ longBits < 2 ^ (longBits - 1) then (n % 2 ^ longBits : Nat)
  else ((n % 2 ^ longBits : Nat) : Int) - ((2 ^ longBits : Nat) : Int)

/-- The method `Stat(pszFilename, pStatBuf)` on a platform whose `long` has
`longBits` bits: the return value, what was stored in `*pStatBuf`, and the
cache afterwards. -/
def Stat (h : VSIArchiveFilesystemHandler) (longBits : Nat) (oFileList : FileList)
    (pszFilename : CStr) : Run (Int × Option VSIStatBufL × FileList) :=
  match SplitFilename h oFileList pszFilename with
  | .ok none => .ok (-1, none, oFileList)
  | .ok (some (archiveFilename, osFileInArchive)) =>
    if osFileInArchive.length ≠ 0 then
      match FindFileInArchive h oFileList archiveFilename (some osFileInArchive) with
      | .ok (none, fl) => .ok (-1, none, fl)
      | .ok (some archiveEntry, fl) =>
        .ok (0, some { st_size := castLong longBits archiveEntry.uncompressed_size,
                       st_mode := if archiveEntry.bIsDir then .S_IFDIR else .S_IFREG }, fl)
      | .outOfBounds => .outOfBounds
      | .outOfFuel => .outOfFuel
    else
      match OpenArchiveFile h oFileList archiveFilename none with
      | .ok (some poReader, fl, _) =>
        .ok (0, some { st_size := castLong longBits poReader.GetFileSize,
                       st_mode := .S_IFREG }, fl)
      | .ok (none, fl, _) => .ok (-1, none, fl)
      | .outOfBounds => .outOfBounds
      | .outOfFuel => .outOfFuel
  | .outOfBounds => .outOfBounds
  | .outOfFuel => .outOfFuel

/-- The method `Unlink(pszFilename)`. -/
def Unlink (oFileList : FileList) (_pszFilename : CStr) : Int × FileList := (-1, oFileList)

/-- The method `Rename(oldpath, newpath)`. -/
def Rename (oFileList : FileList) (_oldpath _newpath : CStr) : Int × FileList :=
  (-1, oFileList)

/-- The method `Mkdir(pszDirname, nMode)`. -/
def Mkdir (oFileList : FileList) (_pszDirname : CStr) (_nMode : Int) : Int × FileList :=
  (-1, oFileList)

/-- The method `Rmdir(pszDirname)`. -/
def Rmdir (oFileList : FileList) (_pszDirname : CStr) : Int × FileList := (-1, oFileList)

/-- Lines 497-527: what one entry named `fileName` adds to the listing of the
sub-directory `osInArchiveSubDir` (`none`: nothing). -/
def readDirEntry (osInArchiveSubDir fileName : CStr) : Option CStr :=
  if osInArchiveSubDir.length ≠ 0 ∧ startsWith fileName osInArchiveSubDir = true ∧
      (fileName[osInArchiveSubDir.length]? = some '/' ∨
        fileName[osInArchiveSubDir.length]? = some '\\') ∧
      (fileName[osInArchiveSubDir.length + 1]?).isSome = true then
    match (match strchr (fileName.drop (osInArchiveSubDir.length + 1)) '/' with
      | some k => some k
      | none => strchr (fileName.drop (osInArchiveSubDir.length + 1)) '\\') with
    | none => some (fileName.drop (osInArchiveSubDir.length + 1))
    | some k =>
      if k + 1 = (fileName.drop (osInArchiveSubDir.length + 1)).length then
        some (fileName.dropLast.drop (osInArchiveSubDir.length + 1))
      else none
  else if osInArchiveSubDir.length = 0 ∧ strchr fileName '/' = none ∧
      strchr fileName '\\' = none then
    some fileName
  else none

/-- The method `ReadDir(pszDirname)`: the string list returned (NULL is the
empty list) and the cache afterwards. -/
def ReadDir (h : VSIArchiveFilesystemHandler) (oFileList : FileList) (pszDirname : CStr) :
    Run (List CStr × FileList) :=
  match SplitFilename h oFileList pszDirname with
  | .ok none => .ok ([], oFileList)
  | .ok (some (archiveFilename, osInArchiveSubDir)) =>
    match GetContentOfArchive h oFileList archiveFilename none with
    | .ok (none, fl, _) => .ok ([], fl)
    | .ok (some content, fl, _) =>
      .ok (content.entries.filterMap (fun e => readDirEntry osInArchiveSubDir e.fileName), fl)
    | .outOfBounds => .outOfBounds
    | .outOfFuel => .outOfFuel
  | .outOfBounds => .outOfBounds
  | .outOfFuel => .outOfFuel

/-! ## Sequences of handler operations -/

/-- One call on the handler. -/
inductive Operation where
  | getContentOfArchive (archiveFilename : CStr) (poReader : Option VSIArchiveReader)
  | findFileInArchive (archiveFilename : CStr) (fileInArchiveName : Option CStr)
  | splitFilename (pszFilename : CStr)
  | openArchiveFile (archiveFilename : CStr) (fileInArchiveName : Option CStr)
  | stat (longBits : Nat) (pszFilename : CStr)
  | readDir (pszDirname : CStr)
  | unlink (pszFilename : CStr)
  | rename (oldpath newpath : CStr)
  | mkdir (pszDirname : CStr) (nMode : Int)
  | rmdir (pszDirname : CStr)

/-- The cache a call leaves behind. -/
def Operation.run (h : VSIArchiveFilesystemHandler) (oFileList : FileList) :
    Operation → Run FileList
  | .getContentOfArchive a r =>
    match GetContentOfArchive h oFileList a r with
    | .ok (_, fl, _) => .ok fl
    | .outOfBounds => .outOfBounds
    | .outOfFuel => .outOfFuel
  | .findFileInArchive a f =>
    match FindFileInArchive h oFileList a f with
    | .ok (_, fl) => .ok fl
    | .outOfBounds => .outOfBounds
    | .outOfFuel => .outOfFuel
  | .splitFilename p =>
    match SplitFilename h oFileList p with
    | .ok _ => .ok oFileList
    | .outOfBounds => .outOfBounds
    | .outOfFuel => .outOfFuel
  | .openArchiveFile a f =>
    match OpenArchiveFile h oFileList a f with
    | .ok (_, fl, _) => .ok fl
    | .outOfBounds => .outOfBounds
    | .outOfFuel => .outOfFuel
  | .stat longBits p =>
    match Stat h longBits oFileList p with
    | .ok (_, _, fl) => .ok fl
    | .outOfBounds => .outOfBounds
    | .outOfFuel => .outOfFuel
  | .readDir p =>
    match ReadDir h oFileList p with
    | .ok (_, fl) => .ok fl
    | .outOfBounds => .outOfBounds
    | .outOfFuel => .outOfFuel
  | .unlink p => .ok (Unlink oFileList p).2
  | .rename a b => .ok (Rename oFileList a b).2
  | .mkdir p m => .ok (Mkdir oFileList p m).2
  | .rmdir p => .ok (Rmdir oFileList p).2

/-- A sequence of calls, each with the handler environment (reader factory,
file system) in force when it is made. -/
def runAll (oFileList : FileList) :
    List (VSIArchiveFilesystemHandler × Operation) → Run FileList
  | [] => .ok oFileList
  | (h, op) :: rest =>
    match op.run h oFileList with
    | .ok fl => runAll fl rest
    | .outOfBounds => .outOfBounds
    | .outOfFuel => .outOfFuel

/-! ## Notions used in the statements -/

/-- The test of lines 218 and 245 at offset `i` of the stripped path `s`: an
extension is found there and the path cut right after it exists. -/
def confirmedAt (h : VSIArchiveFilesystemHandler) (oFileList : FileList) (s : CStr)
    (i : Nat) : Bool :=
  matchExtension h.GetExtensions (s.drop i) != 0 &&
    bArchiveFileExists h oFileList (s.take (i + matchExtension h.GetExtensions (s.drop i)))

/-- Offset `i` is the first one of the stripped path `s` at which the scan
confirms an archive. -/
@[reducible] def firstBoundary (h : VSIArchiveFilesystemHandler) (oFileList : FileList)
    (s : CStr) (i : Nat) : Prop :=
  i < s.length ∧ confirmedAt h oFileList s i = true ∧
    ∀ j, j < i → confirmedAt h oFileList s j = false

/-- The string `t` ends with `ext`, letter case aside. -/
def endsWithNoCase (t ext : CStr) : Prop :=
  ext.length ≤ t.length ∧
    (t.drop (t.length - ext.length)).map Char.toLower = ext.map Char.toLower

/-- Some two neighbouring characters of the string are both separators. -/
def hasDoubleSeparator : CStr → Bool
  | a :: b :: rest => (isSeparator a && isSeparator b) || hasDoubleSeparator (b :: rest)
  | _ => false

/-- No two neighbouring characters of the string are both separators. -/
@[reducible] def noDoubleSeparator (s : CStr) : Prop := hasDoubleSeparator s = false

/-- The last two characters of the string are both separators. -/
def endsWithTwoSeparators (s : CStr) : Bool :=
  match s.reverse with
  | a :: b :: _ => isSeparator a && isSeparator b
  | _ => false

/-- The entry appended while the cursor is on the file `f`. -/
def entryOfFile (f : ReaderFile) : VSIArchiveEntry :=
  entryOfCurrent { files := [f], cur := [f] }

/-- The cache `fl2` is `fl1`, or `fl1` with one entry added under a key it did
not have. -/
def cacheGrows (fl1 fl2 : FileList) : Prop :=
  fl2 = fl1 ∨ ∃ k c, fl1.find k = none ∧ fl2 = (k, c) :: fl1

/-- The last character of the string, if there is one, is not a separator. -/
@[reducible] def noTrailingSeparator (s : CStr) : Prop :=
  ∀ c, s.getLast? = some c → isSeparator c = false

/-! ## Concrete handlers used in the examples -/

/-- A reader over the archive of the examples: `readme.txt` (100 bytes), the
directory marker `src/`, and `src/main.c` (50 bytes). -/
def demoReader : VSIArchiveReader where
  files := [{ fileName := "readme.txt".toList, fileSize := 100, fileOffset := 0 },
    { fileName := "src/".toList, fileSize := 0, fileOffset := 1 },
    { fileName := "src/main.c".toList, fileSize := 50, fileOffset := 2 }]
  cur := []

/-- A handler mounted at `/ovl` over a file system that holds `demo.zip`. -/
def demoHandler : VSIArchiveFilesystemHandler where
  GetPrefix := "/ovl".toList
  GetExtensions := [".zip".toList]
  CreateReader := fun p => if p = "demo.zip".toList then some demoReader else none
  fsStat := fun p => if p = "demo.zip".toList then some false else none

/-- The content GetContentOfArchive builds from `demoReader`. -/
def demoContent : VSIArchiveContent where
  entries := [
    { fileName := "readme.txt".toList, uncompressed_size := 100, bIsDir := false, file_pos := 0 },
    { fileName := "src".toList, uncompressed_size := 0, bIsDir := true, file_pos := 1 },
    { fileName := "src/main.c".toList, uncompressed_size := 50, bIsDir := false, file_pos := 2 }]

/-- A reader whose single entry has a backslash inside its raw name and two
separators at its end. -/
def backslashReader : VSIArchiveReader where
  files := [{ fileName := "dir\\sub//".toList, fileSize := 0, fileOffset := 0 }]
  cur := []

/-- A zip-like handler: extensions of length 4 and 5, one archive `a.zip` and
one archive `x.xlsx` on disk. -/
def zipHandler : VSIArchiveFilesystemHandler where
  GetPrefix := "/vsizip".toList
  GetExtensions := [".zip".toList, ".xlsx".toList]
  CreateReader := fun _ => none
  fsStat := fun p => if p = "a.zip".toList ∨ p = "x.xlsx".toList then some false else none

/-- A tar-like handler whose list names `.tar.gz` before `.tar`; both `x.tar`
and `x.tar.gz` are files on disk. -/
def tarHandler : VSIArchiveFilesystemHandler where
  GetPrefix := "/vsitar".toList
  GetExtensions := [".tar.gz".toList, ".tar".toList, ".tgz".toList]
  CreateReader := fun _ => none
  fsStat := fun p => if p = "x.tar".toList ∨ p = "x.tar.gz".toList then some false else none

/-- A reader that has not been positioned yet over the entries `files`. -/
def readerOf (files : List ReaderFile) : VSIArchiveReader where
  files := files
  cur := []

/-- A handler mounted at `/ovl` with the extension `.zip`, over a file system
that holds the single archive `archive`; `CreateReader` opens it as `r`. -/
def oneArchiveHandler (archive : CStr) (r : VSIArchiveReader) :
    VSIArchiveFilesystemHandler where
  GetPrefix := "/ovl".toList
  GetExtensions := [".zip".toList]
  CreateReader := fun p => if p = archive then some r else none
  fsStat := fun p => if p = archive then some false else none

/-- Lines 504-517 on the remainder `tail` of an entry name behind the
sub-directory and one separator: what is added to the listing. -/
def listedTail (tail : CStr) : Option CStr :=
  match (match strchr tail '/' with
    | some k => some k
    | none => strchr tail '\\') with
  | none => some tail
  | some k => if k + 1 = tail.length then some tail.dropLast else none

/-- The string without its last character when that one is a separator. -/
def dropTrailingSeparator (s : CStr) : CStr :=
  match s.getLast? with
  | some c => if isSeparator c then s.dropLast else s
  | none => s

/-- The listing rule in the words of the specification: for an empty
sub-directory, the entry name if it contains no separator; otherwise, when the
name is the sub-directory, one separator and a non-empty remainder, the
remainder without one trailing separator, if no separator is left in it. -/
def listedNameSpec (subDir name : CStr) : Option CStr :=
  if subDir = [] then
    if name.all (fun c => !isSeparator c) then some name else none
  else
    match name.drop subDir.length with
    | sep :: c :: rest =>
      if startsWith name subDir && isSeparator sep &&
          (dropTrailingSeparator (c :: rest)).all (fun c => !isSeparator c) then
        some (dropTrailingSeparator (c :: rest))
      else none
    | _ => none

/-- The stored names that make `ReadDir` of the sub-directory `x` list `y`:
`x`, one separator, `y`, and possibly one more separator. -/
def childNames (x y : CStr) : List CStr :=
  [x ++ '/' :: y, x ++ '\\' :: y,
    x ++ '/' :: y ++ ['/'], x ++ '/' :: y ++ ['\\'],
    x ++ '\\' :: y ++ ['/'], x ++ '\\' :: y ++ ['\\']]

/-- A handler over `deep.zip`, whose only entry is `src/lib/util.c`. -/
def deepHandler : VSIArchiveFilesystemHandler :=
  oneArchiveHandler "deep.zip".toList (readerOf [⟨"src/lib/util.c".toList, 5, 0⟩])

/-- A handler over `tree.zip`, which has directory markers for `src/` and
`src/lib/` and two files below `src/lib/`. -/
def treeHandler : VSIArchiveFilesystemHandler :=
  oneArchiveHandler "tree.zip".toList
    (readerOf [⟨"src/".toList, 0, 0⟩, ⟨"src/lib/".toList, 0, 1⟩,
      ⟨"src/lib/util.c".toList, 5, 2⟩, ⟨"src/lib/io.c".toList, 6, 3⟩])

/-- The content GetContentOfArchive builds for `tree.zip`. -/
def treeContent : VSIArchiveContent where
  entries := [⟨"src".toList, 0, true, 0⟩, ⟨"src/lib".toList, 0, true, 1⟩,
    ⟨"src/lib/util.c".toList, 5, false, 2⟩, ⟨"src/lib/io.c".toList, 6, false, 3⟩]

/-- A handler over `m.zip`, in which the raw name `d/a\b//` has a backslash
inside and is stored with a '/' at its end. -/
def mixedHandler : VSIArchiveFilesystemHandler :=
  oneArchiveHandler "m.zip".toList
    (readerOf [⟨"d/".toList, 0, 0⟩, ⟨"d/a\\b//".toList, 0, 1⟩, ⟨"d/x".toList, 4, 2⟩])

/-- The content GetContentOfArchive builds for `m.zip`. -/
def mixedContent : VSIArchiveContent where
  entries := [⟨"d".toList, 0, true, 0⟩, ⟨"d/a\\b/".toList, 0, true, 1⟩,
    ⟨"d/x".toList, 4, false, 2⟩]

/-! ## Lemmas on the string helpers -/

theorem drop_eq_cons_step {s : CStr} {i : Nat} {c : Char} {rest : CStr}
    (hd : s.drop i = c :: rest) : s.drop (i + 1) = rest ∧ i < s.length := by
  have hlt : i < s.length := by
    by_contra hge
    rw [List.drop_eq_nil_of_le (Nat.le_of_not_lt hge)] at hd
    cases hd
  refine ⟨?_, hlt⟩
  have h1 : s.drop (i + 1) = (s.drop i).drop 1 := by
    rw [List.drop_drop, Nat.add_comm]
  rw [h1, hd]
  rfl

theorem EQUALN_take : ∀ (ext s : CStr), EQUALN s ext ext.length = true →
    ext.length ≤ s.length ∧ (s.take ext.length).map Char.toLower = ext.map Char.toLower
  | [], s, _ => by simp
  | b :: t, [], hm => by simp [EQUALN] at hm
  | b :: t, a :: s, hm => by
    simp only [List.length_cons, EQUALN, Bool.and_eq_true, beq_iff_eq] at hm
    obtain ⟨hlen, hmap⟩ := EQUALN_take t s hm.2
    refine ⟨by simpa using hlen, ?_⟩
    simp only [List.length_cons, List.take_succ_cons, List.map_cons, hm.1, hmap]

theorem take_EQUALN : ∀ (ext s : CStr), ext.length ≤ s.length →
    (s.take ext.length).map Char.toLower = ext.map Char.toLower →
    EQUALN s ext ext.length = true
  | [], s, _, _ => by simp [EQUALN]
  | b :: t, [], hl, _ => by simp at hl
  | b :: t, a :: s, hl, hm => by
    simp only [List.length_cons, List.take_succ_cons, List.map_cons, List.cons.injEq] at hm
    simp only [List.length_cons, EQUALN, Bool.and_eq_true, beq_iff_eq]
    exact ⟨hm.1, take_EQUALN t s (by simpa using hl) hm.2⟩

theorem matchExtension_pos : ∀ (exts : List CStr) (s : CStr),
    matchExtension exts s ≠ 0 →
    ∃ ext, ext ∈ exts ∧ ext ≠ [] ∧ ext.length = matchExtension exts s ∧
      EQUALN s ext ext.length = true
  | [], s, hn => by simp [matchExtension] at hn
  | e :: rest, s, hn => by
    unfold matchExtension at hn ⊢
    by_cases he : EQUALN s e e.length = true
    · rw [if_pos he] at hn ⊢
      refine ⟨e, List.mem_cons_self _ _, ?_, rfl, he⟩
      intro h0
      apply hn
      rw [h0]
      rfl
    · rw [if_neg he] at hn ⊢
      obtain ⟨x, hx, hx0, hxl, hxe⟩ := matchExtension_pos rest s hn
      exact ⟨x, List.mem_cons_of_mem _ hx, hx0, hxl, hxe⟩

theorem startsWith_iff : ∀ (s t : CStr), startsWith s t = true ↔ ∃ r, s = t ++ r
  | s, [] => by simp [startsWith]
  | [], b :: t => by simp [startsWith]
  | a :: s, b :: t => by
    simp only [startsWith, Bool.and_eq_true, beq_iff_eq, List.cons_append, List.cons.injEq,
      startsWith_iff s t]
    constructor
    · rintro ⟨hab, r, hr⟩
      exact ⟨r, hab, hr⟩
    · rintro ⟨r, hab, hr⟩
      exact ⟨hab, r, hr⟩

theorem strstrFrom_none_of_not_mem (c : Char) (t : CStr) :
    ∀ (s : CStr) (i : Nat), c ∉ s → strstrFrom (c :: t) s i = none
  | [], i, _ => by simp [strstrFrom]
  | a :: s, i, hc => by
    have hac : ¬ a = c := fun e => hc (by simp [e])
    have hcs : c ∉ s := fun e => hc (List.mem_cons_of_mem _ e)
    simp only [strstrFrom, startsWith, Bool.and_eq_true, beq_iff_eq, hac, false_and,
      Bool.false_eq_true, if_false]
    exact strstrFrom_none_of_not_mem c t s (i + 1) hcs

theorem strstrFrom_some (needle : CStr) : ∀ (s : CStr) (i k : Nat),
    strstrFrom needle s i = some k →
    i ≤ k ∧ k - i ≤ s.length ∧ startsWith (s.drop (k - i)) needle = true
  | [], i, k, hk => by
    unfold strstrFrom at hk
    by_cases hn : needle = []
    · rw [if_pos hn] at hk
      cases hk
      subst hn
      simp [startsWith]
    · rw [if_neg hn] at hk
      cases hk
  | a :: s, i, k, hk => by
    unfold strstrFrom at hk
    by_cases hsw : startsWith (a :: s) needle = true
    · rw [if_pos hsw] at hk
      cases hk
      simpa using hsw
    · rw [if_neg hsw] at hk
      obtain ⟨h1, h2, h3⟩ := strstrFrom_some needle s (i + 1) k hk
      have hki : k - i = (k - (i + 1)) + 1 := by omega
      refine ⟨by omega, ?_, ?_⟩
      · rw [hki]
        simpa using h2
      · rw [hki]
        simpa using h3

theorem prevSlash_le (s : CStr) : ∀ (q : Nat), prevSlash s q ≤ q
  | 0 => by simp [prevSlash]
  | q + 1 => by
    unfold prevSlash
    split
    · exact Nat.le_refl _
    · exact Nat.le_succ_of_le (prevSlash_le s q)

theorem prevSlash_slash (s : CStr) : ∀ (q : Nat), prevSlash s q ≠ 0 →
    s[prevSlash s q]? = some '/'
  | 0, hq => by simp [prevSlash] at hq
  | q + 1, hq => by
    unfold prevSlash at hq ⊢
    split
    · assumption
    · rename_i hne
      rw [if_neg hne] at hq
      exact prevSlash_slash s q hq

/-! ## Lemmas on the scan of SplitFilename -/

theorem confirmedAt_iff (h : VSIArchiveFilesystemHandler) (fl : FileList) (s : CStr) (i : Nat) :
    confirmedAt h fl s i = true ↔
      (matchExtension h.GetExtensions (s.drop i) ≠ 0 ∧
        bArchiveFileExists h fl
          (s.take (i + matchExtension h.GetExtensions (s.drop i))) = true) := by
  simp [confirmedAt]

theorem loop_sound (h : VSIArchiveFilesystemHandler) (fl : FileList) (s a f : CStr) :
    ∀ (suffix : CStr) (i : Nat), s.drop i = suffix →
      SplitFilenameLoop h fl s i suffix = .ok (some (a, f)) →
      ∃ k, i ≤ k ∧ k < s.length ∧ confirmedAt h fl s k = true ∧
        (∀ j, i ≤ j → j < k → confirmedAt h fl s j = false) ∧
        a = s.take (k + matchExtension h.GetExtensions (s.drop k)) ∧
        fileInArchive (matchExtension h.GetExtensions (s.drop k))
          (s.drop (k + matchExtension h.GetExtensions (s.drop k))) = .ok f
  | [], i, _, hr => by simp [SplitFilenameLoop] at hr
  | c :: rest, i, hd, hr => by
    obtain ⟨hnext, hlt⟩ := drop_eq_cons_step hd
    unfold SplitFilenameLoop at hr
    by_cases hc : matchExtension h.GetExtensions (c :: rest) ≠ 0 ∧
        bArchiveFileExists h fl
          (s.take (i + matchExtension h.GetExtensions (c :: rest))) = true
    · rw [if_pos hc] at hr
      rw [← hd] at hc hr
      refine ⟨i, Nat.le_refl i, hlt, (confirmedAt_iff h fl s i).2 hc, ?_, ?_⟩
      · intro j h1 h2
        omega
      · cases hfa : fileInArchive (matchExtension h.GetExtensions (s.drop i))
            (s.drop (i + matchExtension h.GetExtensions (s.drop i))) with
        | ok g =>
          rw [hfa] at hr
          simp only [Run.ok.injEq, Option.some.injEq, Prod.mk.injEq] at hr
          exact ⟨hr.1.symm, by rw [hr.2]⟩
        | outOfBounds => rw [hfa] at hr; cases hr
        | outOfFuel => rw [hfa] at hr; cases hr
    · rw [if_neg hc] at hr
      obtain ⟨k, hk1, hk2, hk3, hk4, hk5⟩ := loop_sound h fl s a f rest (i + 1) hnext hr
      refine ⟨k, by omega, hk2, hk3, ?_, hk5⟩
      intro j h1 h2
      by_cases hji : j = i
      · subst hji
        rw [← hd] at hc
        cases hcf : confirmedAt h fl s j with
        | false => rfl
        | true => exact absurd ((confirmedAt_iff h fl s j).1 hcf) hc
      · exact hk4 j (by omega) h2

theorem loop_complete (h : VSIArchiveFilesystemHandler) (fl : FileList) (s f : CStr) (k : Nat)
    (hk : confirmedAt h fl s k = true)
    (hf : fileInArchive (matchExtension h.GetExtensions (s.drop k))
      (s.drop (k + matchExtension h.GetExtensions (s.drop k))) = .ok f) :
    ∀ (suffix : CStr) (i : Nat), s.drop i = suffix → i ≤ k → k < s.length →
      (∀ j, i ≤ j → j < k → confirmedAt h fl s j = false) →
      SplitFilenameLoop h fl s i suffix =
        .ok (some (s.take (k + matchExtension h.GetExtensions (s.drop k)), f))
  | [], i, hd, hik, hkl, _ => by
    have : s.length ≤ i := by
      by_contra hlt
      have := List.drop_eq_nil_iff.1 hd
      omega
    omega
  | c :: rest, i, hd, hik, hkl, hfirst => by
    obtain ⟨hnext, _⟩ := drop_eq_cons_step hd
    unfold SplitFilenameLoop
    by_cases hji : i = k
    · subst hji
      have hc := (confirmedAt_iff h fl s i).1 hk
      rw [hd] at hc hf
      rw [if_pos hc, hf, ← hd]
    · have hni : confirmedAt h fl s i = false := hfirst i (Nat.le_refl i) (by omega)
      have hc : ¬ (matchExtension h.GetExtensions (c :: rest) ≠ 0 ∧
          bArchiveFileExists h fl
            (s.take (i + matchExtension h.GetExtensions (c :: rest))) = true) := by
        intro hcc
        rw [← hd] at hcc
        rw [(confirmedAt_iff h fl s i).2 hcc] at hni
        cases hni
      rw [if_neg hc]
      exact loop_complete h fl s f k hk hf rest (i + 1) hnext (by omega) hkl
        (fun j h1 h2 => hfirst j (by omega) h2)

theorem splitFilename_sound (h : VSIArchiveFilesystemHandler) (fl : FileList)
    (path a f : CStr) (hr : SplitFilename h fl path = .ok (some (a, f))) :
    ∃ s k, skipPrefix h path = .ok s ∧ firstBoundary h fl s k ∧
      a = s.take (k + matchExtension h.GetExtensions (s.drop k)) ∧
      fileInArchive (matchExtension h.GetExtensions (s.drop k))
        (s.drop (k + matchExtension h.GetExtensions (s.drop k))) = .ok f := by
  unfold SplitFilename at hr
  cases hs : skipPrefix h path with
  | ok s =>
    rw [hs] at hr
    obtain ⟨k, _, hk2, hk3, hk4, hk5, hk6⟩ := loop_sound h fl s a f s 0 rfl hr
    exact ⟨s, k, rfl, ⟨hk2, hk3, fun j hj => hk4 j (Nat.zero_le j) hj⟩, hk5, hk6⟩
  | outOfBounds => rw [hs] at hr; cases hr
  | outOfFuel => rw [hs] at hr; cases hr

theorem splitFilename_complete (h : VSIArchiveFilesystemHandler) (fl : FileList)
    (path s f : CStr) (k : Nat) (hs : skipPrefix h path = .ok s)
    (hk : firstBoundary h fl s k)
    (hf : fileInArchive (matchExtension h.GetExtensions (s.drop k))
      (s.drop (k + matchExtension h.GetExtensions (s.drop k))) = .ok f) :
    SplitFilename h fl path =
      .ok (some (s.take (k + matchExtension h.GetExtensions (s.drop k)), f)) := by
  unfold SplitFilename
  rw [hs]
  exact loop_complete h fl s f k hk.2.1 hf s 0 rfl (Nat.zero_le k) hk.1
    (fun j _ hj => hk.2.2 j hj)

theorem matchExtension_of_mem : ∀ (exts : List CStr) (t ext : CStr), ext ∈ exts →
    EQUALN t ext ext.length = true →
    ∃ e, e ∈ exts ∧ matchExtension exts t = e.length
  | [], _, _, hm, _ => by cases hm
  | e :: rest, t, ext, hm, he => by
    unfold matchExtension
    by_cases hc : EQUALN t e e.length = true
    · rw [if_pos hc]
      exact ⟨e, List.mem_cons_self _ _, rfl⟩
    · rw [if_neg hc]
      rcases List.mem_cons.1 hm with h1 | h1
      · subst h1
        exact absurd he hc
      · obtain ⟨x, hx, hxl⟩ := matchExtension_of_mem rest t ext h1 he
        exact ⟨x, List.mem_cons_of_mem _ hx, hxl⟩

/-! ## C1 and C2: the archive path returned by SplitFilename -/

/-- C1: whenever SplitFilename returns an archive path, that path is the
stripped path cut right after an occurrence (letter case aside) of one of the
listed extensions, and it is a key of the cache or a path the underlying file
system stats as existing and not a directory. -/
theorem splitFilename_archive_after_extension (h : VSIArchiveFilesystemHandler)
    (fl : FileList) (path archive inner : CStr)
    (hr : SplitFilename h fl path = .ok (some (archive, inner))) :
    ∃ s i ext, skipPrefix h path = .ok s ∧ ext ∈ h.GetExtensions ∧ ext ≠ [] ∧
      i + ext.length ≤ s.length ∧
      ((s.drop i).take ext.length).map Char.toLower = ext.map Char.toLower ∧
      archive = s.take (i + ext.length) ∧
      ((fl.find archive).isSome = true ∨ h.fsStat archive = some false) := by
  obtain ⟨s, k, hs, hb, ha, _⟩ := splitFilename_sound h fl path archive inner hr
  obtain ⟨hn, hex⟩ := (confirmedAt_iff h fl s k).1 hb.2.1
  obtain ⟨ext, hmem, hne, hlen, heq⟩ := matchExtension_pos h.GetExtensions (s.drop k) hn
  obtain ⟨hle, hmap⟩ := EQUALN_take ext (s.drop k) heq
  rw [← hlen] at ha hex
  rw [← ha] at hex
  refine ⟨s, k, ext, hs, hmem, hne, ?_, hmap, ha, ?_⟩
  · rw [List.length_drop] at hle
    have := hb.1
    omega
  · simpa [bArchiveFileExists] using hex

/-- C1, at the path `/vsizip/a.zip/b` of the zip-like handler. -/
theorem splitFilename_archive_after_extension_witness :
    ∃ s i ext, skipPrefix zipHandler "/vsizip/a.zip/b".toList = .ok s ∧
      ext ∈ zipHandler.GetExtensions ∧ ext ≠ [] ∧
      i + ext.length ≤ s.length ∧
      ((s.drop i).take ext.length).map Char.toLower = ext.map Char.toLower ∧
      "a.zip".toList = s.take (i + ext.length) ∧
      ((FileList.find [] "a.zip".toList).isSome = true ∨
        zipHandler.fsStat "a.zip".toList = some false) :=
  splitFilename_archive_after_extension zipHandler [] "/vsizip/a.zip/b".toList
    "a.zip".toList "b".toList (by decide)

/-- C2 as stated fails: with `.tar.gz` listed before `.tar` and both `x.tar` and
`x.tar.gz` on disk, `/vsitar/x.tar.gz/f` resolves to `x.tar.gz`, although the
shorter initial part `x.tar` ends with a listed extension and exists. -/
theorem splitFilename_not_shortest :
    ¬ (∀ (h : VSIArchiveFilesystemHandler) (fl : FileList) (path s archive inner : CStr),
        SplitFilename h fl path = .ok (some (archive, inner)) →
        skipPrefix h path = .ok s →
        ∀ (k : Nat) (ext : CStr), ext ∈ h.GetExtensions → k ≤ s.length →
          endsWithNoCase (s.take k) ext → bArchiveFileExists h fl (s.take k) = true →
          archive.length ≤ k) := by
  intro hall
  have hbad := hall tarHandler [] "/vsitar/x.tar.gz/f".toList "x.tar.gz/f".toList
    "x.tar.gz".toList "f".toList (by decide) (by decide) 5 ".tar".toList (by decide)
    (by decide) ⟨by decide, by decide⟩ (by decide)
  exact absurd hbad (by decide)

/-- C2, amended: when SplitFilename succeeds, the archive path is the candidate
of the leftmost offset whose candidate is confirmed to exist, the candidate of
an offset being the stripped path cut after the first listed extension found
there; no candidate of an earlier offset exists. When all listed extensions
have the same length, it is the shortest initial part of the stripped path that
ends with a listed extension and is confirmed to exist. -/
theorem splitFilename_first_confirmed (h : VSIArchiveFilesystemHandler)
    (fl : FileList) (path archive inner : CStr)
    (hr : SplitFilename h fl path = .ok (some (archive, inner))) :
    ∃ s i, skipPrefix h path = .ok s ∧ i < s.length ∧
      matchExtension h.GetExtensions (s.drop i) ≠ 0 ∧
      archive = s.take (i + matchExtension h.GetExtensions (s.drop i)) ∧
      bArchiveFileExists h fl archive = true ∧
      (∀ j, j < i → matchExtension h.GetExtensions (s.drop j) = 0 ∨
        bArchiveFileExists h fl
          (s.take (j + matchExtension h.GetExtensions (s.drop j))) = false) ∧
      ((∀ e ∈ h.GetExtensions, ∀ e' ∈ h.GetExtensions, e.length = e'.length) →
        ∀ (k : Nat) (ext : CStr), ext ∈ h.GetExtensions → k ≤ s.length →
          endsWithNoCase (s.take k) ext → bArchiveFileExists h fl (s.take k) = true →
          archive.length ≤ k) := by
  obtain ⟨s, i, hs, hb, ha, _⟩ := splitFilename_sound h fl path archive inner hr
  obtain ⟨hn, hex⟩ := (confirmedAt_iff h fl s i).1 hb.2.1
  refine ⟨s, i, hs, hb.1, hn, ha, by rw [ha]; exact hex, ?_, ?_⟩
  · intro j hj
    have hnc := hb.2.2 j hj
    by_cases h0 : matchExtension h.GetExtensions (s.drop j) = 0
    · exact Or.inl h0
    · right
      cases hbe : bArchiveFileExists h fl
          (s.take (j + matchExtension h.GetExtensions (s.drop j))) with
      | false => rfl
      | true =>
        rw [(confirmedAt_iff h fl s j).2 ⟨h0, hbe⟩] at hnc
        cases hnc
  · intro hsame k ext hmem hk hends hexk
    obtain ⟨e0, he0, _, he0l, _⟩ := matchExtension_pos h.GetExtensions (s.drop i) hn
    have hL : ext.length = matchExtension h.GetExtensions (s.drop i) := by
      rw [← he0l]
      exact hsame ext hmem e0 he0
    obtain ⟨hle, hmap⟩ := hends
    have hlk : (s.take k).length = k := by
      rw [List.length_take]
      omega
    rw [hlk] at hle hmap
    have hdt : (s.take k).drop (k - ext.length) = (s.drop (k - ext.length)).take ext.length := by
      rw [List.drop_take]
      congr 1
      omega
    rw [hdt] at hmap
    have heq : EQUALN (s.drop (k - ext.length)) ext ext.length = true := by
      apply take_EQUALN ext _ _ hmap
      rw [List.length_drop]
      omega
    obtain ⟨e1, he1, he1l⟩ := matchExtension_of_mem h.GetExtensions _ ext hmem heq
    have hm1 : matchExtension h.GetExtensions (s.drop (k - ext.length)) = ext.length := by
      rw [he1l]
      exact hsame e1 he1 ext hmem
    have hkk : k - ext.length + ext.length = k := by omega
    have hconf : confirmedAt h fl s (k - ext.length) = true := by
      apply (confirmedAt_iff h fl s _).2
      rw [hm1, hkk]
      exact ⟨by omega, hexk⟩
    have hge : i ≤ k - ext.length := by
      by_contra hlt
      have := hb.2.2 (k - ext.length) (by omega)
      rw [hconf] at this
      cases this
    rw [ha, List.length_take]
    omega

/-- C2 amended, at the path `/vsitar/x.tar.gz/f` of the tar-like handler. -/
theorem splitFilename_first_confirmed_witness :
    ∃ s i, skipPrefix tarHandler "/vsitar/x.tar.gz/f".toList = .ok s ∧ i < s.length ∧
      matchExtension tarHandler.GetExtensions (s.drop i) ≠ 0 ∧
      "x.tar.gz".toList = s.take (i + matchExtension tarHandler.GetExtensions (s.drop i)) ∧
      bArchiveFileExists tarHandler [] "x.tar.gz".toList = true ∧
      (∀ j, j < i → matchExtension tarHandler.GetExtensions (s.drop j) = 0 ∨
        bArchiveFileExists tarHandler []
          (s.take (j + matchExtension tarHandler.GetExtensions (s.drop j))) = false) ∧
      ((∀ e ∈ tarHandler.GetExtensions, ∀ e' ∈ tarHandler.GetExtensions,
          e.length = e'.length) →
        ∀ (k : Nat) (ext : CStr), ext ∈ tarHandler.GetExtensions → k ≤ s.length →
          endsWithNoCase (s.take k) ext →
          bArchiveFileExists tarHandler [] (s.take k) = true →
          "x.tar.gz".toList.length ≤ k) :=
  splitFilename_first_confirmed tarHandler [] "/vsitar/x.tar.gz/f".toList
    "x.tar.gz".toList "f".toList (by decide)

/-! ## The loops of SplitFilename do not run out of fuel -/

theorem collapsePrevDir_fuel (n : Nat) (hn : 0 < n) : ∀ (fuel : Nat) (s : CStr),
    s.length < fuel → collapsePrevDir n fuel s ≠ .outOfFuel
  | 0, s, hlt => by omega
  | fuel + 1, s, hlt => by
    unfold collapsePrevDir
    cases hf : strstr s "/../".toList with
    | none => simp
    | some k =>
      cases k with
      | zero => simp
      | succ p =>
        simp only
        by_cases hb : p + 1 + n ≤ s.length
        · rw [if_pos hb]
          have hq := prevSlash_le s p
          by_cases hq0 : prevSlash s p = 0
          · rw [if_pos hq0]
            apply collapsePrevDir_fuel n hn fuel
            rw [List.length_drop]
            omega
          · rw [if_neg hq0]
            apply collapsePrevDir_fuel n hn fuel
            rw [List.length_append, List.length_take, List.length_drop]
            omega
        · rw [if_neg hb]
          simp

theorem fileInArchive_fuel (n : Nat) (hn : 0 < n) (rest : CStr) :
    fileInArchive n rest ≠ .outOfFuel := by
  unfold fileInArchive
  cases rest with
  | nil => simp
  | cons c raw =>
    simp only
    have := collapsePrevDir_fuel n hn (raw.length + 1) raw (Nat.lt_succ_self _)
    cases hc : collapsePrevDir n (raw.length + 1) raw with
    | ok r => simp
    | outOfBounds => simp
    | outOfFuel => exact absurd hc this

theorem loop_fuel (h : VSIArchiveFilesystemHandler) (fl : FileList) (s : CStr) :
    ∀ (suffix : CStr) (i : Nat), SplitFilenameLoop h fl s i suffix ≠ .outOfFuel
  | [], i => by simp [SplitFilenameLoop]
  | c :: rest, i => by
    unfold SplitFilenameLoop
    by_cases hc : matchExtension h.GetExtensions (c :: rest) ≠ 0 ∧
        bArchiveFileExists h fl
          (s.take (i + matchExtension h.GetExtensions (c :: rest))) = true
    · rw [if_pos hc]
      have := fileInArchive_fuel (matchExtension h.GetExtensions (c :: rest))
        (Nat.pos_of_ne_zero hc.1)
        (s.drop (i + matchExtension h.GetExtensions (c :: rest)))
      cases hfa : fileInArchive (matchExtension h.GetExtensions (c :: rest))
          (s.drop (i + matchExtension h.GetExtensions (c :: rest))) with
      | ok r => simp
      | outOfBounds => simp
      | outOfFuel => exact absurd hfa this
    · rw [if_neg hc]
      exact loop_fuel h fl s rest (i + 1)

theorem splitFilename_fuel (h : VSIArchiveFilesystemHandler) (fl : FileList) (path : CStr) :
    SplitFilename h fl path ≠ .outOfFuel := by
  unfold SplitFilename
  cases hs : skipPrefix h path with
  | ok s => exact loop_fuel h fl s s 0
  | outOfBounds => simp
  | outOfFuel =>
    unfold skipPrefix at hs
    split at hs
    · cases hs
    · split at hs <;> cases hs

/-! ## C3, C4 and C5: the inner path returned by SplitFilename -/

theorem collapsePrevDir_of_no_parent (n fuel : Nat) (s : CStr)
    (hs : strstr s "/../".toList = none) : collapsePrevDir n (fuel + 1) s = .ok s := by
  unfold collapsePrevDir
  rw [hs]

theorem strstr_parent_none (x : CStr) (hx : ∀ c ∈ x, isSeparator c = false) :
    strstr ('.' :: '.' :: '/' :: x) "/../".toList = none := by
  have hnot : '/' ∉ x := fun hm => by
    have := hx '/' hm
    simp [isSeparator] at this
  have hsw : startsWith x "../".toList = false := by
    cases hb : startsWith x "../".toList with
    | false => rfl
    | true =>
      obtain ⟨r, hr⟩ := (startsWith_iff x _).1 hb
      exact absurd (by rw [hr]; simp) hnot
  have htail := strstrFrom_none_of_not_mem '/' "../".toList x 3 hnot
  have e1 : startsWith ('.' :: '.' :: '/' :: x) "/../".toList = false := by
    simp [startsWith]
  have e2 : startsWith ('.' :: '/' :: x) "/../".toList = false := by
    simp [startsWith]
  have e3 : startsWith ('/' :: x) "/../".toList = false := by
    have : startsWith ('/' :: x) "/../".toList = startsWith x "../".toList := by
      simp [startsWith]
    rw [this, hsw]
  unfold strstr
  unfold strstrFrom
  rw [e1]
  unfold strstrFrom
  rw [e2]
  unfold strstrFrom
  rw [e3]
  exact htail

theorem removeTrailingSlash_of_noTrailing (s : CStr) (hs : noTrailingSeparator s) :
    removeTrailingSlash s = s := by
  unfold removeTrailingSlash
  cases hl : s.getLast? with
  | none => rfl
  | some c =>
    have := hs c hl
    simp only [isSeparator, Bool.or_eq_false_iff, beq_eq_false_iff_ne] at this
    simp [this.1, this.2]

/-- C3: the collapse of `segment/../` copies from `nToSkip` characters after
`pszPrevDir`, the length of the matched extension. With `.zip` (four
characters, the length of `/../`) `a/b/../c` becomes `a/c`; with `.tar.gz`
(seven characters) `a/b/../cdefg` becomes `a/fg`. -/
theorem splitFilename_collapse_uses_extension_length :
    SplitFilename zipHandler [] "/vsizip/a.zip/a/b/../c".toList =
        .ok (some ("a.zip".toList, "a/c".toList)) ∧
      SplitFilename tarHandler [] "/vsitar/x.tar.gz/a/b/../cdefg".toList =
        .ok (some ("x.tar.gz".toList, "a/fg".toList)) := by
  constructor <;> decide

/-- C4 as stated fails: `/vsizip/a.zip/../x` resolves to the inner path `../x`,
not `x`. -/
theorem splitFilename_leading_parent_kept :
    SplitFilename zipHandler [] "/vsizip/a.zip/../x".toList =
        .ok (some ("a.zip".toList, "../x".toList)) ∧
      SplitFilename zipHandler [] "/vsizip/a.zip/../x".toList ≠
        .ok (some ("a.zip".toList, "x".toList)) := by
  constructor <;> decide

/-- C4, amended: a `../` with no preceding segment is left in place. For every
handler and every non-empty segment `x` without separators, when the scan
confirms the archive at offset `i` and the stripped path continues with
`/../x` after the archive, SplitFilename returns the inner path `../x`. -/
theorem splitFilename_leading_parent (h : VSIArchiveFilesystemHandler) (fl : FileList)
    (path s x : CStr) (i : Nat) (hs : skipPrefix h path = .ok s)
    (hb : firstBoundary h fl s i)
    (hrest : s.drop (i + matchExtension h.GetExtensions (s.drop i)) =
      '/' :: '.' :: '.' :: '/' :: x)
    (hx : ∀ c ∈ x, isSeparator c = false) (hne : x ≠ []) :
    SplitFilename h fl path =
      .ok (some (s.take (i + matchExtension h.GetExtensions (s.drop i)),
        '.' :: '.' :: '/' :: x)) := by
  apply splitFilename_complete h fl path s _ i hs hb
  rw [hrest]
  unfold fileInArchive
  simp only
  rw [collapsePrevDir_of_no_parent _ _ _ (strstr_parent_none x hx)]
  have hnt : noTrailingSeparator ('.' :: '.' :: '/' :: x) := by
    intro c hc
    have hl : ('.' :: '.' :: '/' :: x).getLast? = x.getLast? := by
      cases x with
      | nil => exact absurd rfl hne
      | cons a t => simp [List.getLast?_cons_cons]
    rw [hl] at hc
    exact hx c (List.mem_of_getLast?_eq_some hc)
  show Run.ok (removeTrailingSlash ('.' :: '.' :: '/' :: x)) = _
  rw [removeTrailingSlash_of_noTrailing _ hnt]

/-- C4 amended, at the path `/vsizip/x.xlsx/../readme` of the zip-like handler. -/
theorem splitFilename_leading_parent_witness :
    SplitFilename zipHandler [] "/vsizip/x.xlsx/../readme".toList =
      .ok (some ("x.xlsx/../readme".toList.take
          (1 + matchExtension zipHandler.GetExtensions ("x.xlsx/../readme".toList.drop 1)),
        '.' :: '.' :: '/' :: "readme".toList)) :=
  splitFilename_leading_parent zipHandler [] "/vsizip/x.xlsx/../readme".toList
    "x.xlsx/../readme".toList "readme".toList 1 (by decide) (by decide) (by decide)
    (by decide) (by decide)

theorem noDoubleSeparator_iff : ∀ (s : CStr), noDoubleSeparator s ↔
    List.Chain' (fun a b => ¬ (isSeparator a = true ∧ isSeparator b = true)) s
  | [] => by simp [noDoubleSeparator, hasDoubleSeparator]
  | [a] => by simp [noDoubleSeparator, hasDoubleSeparator]
  | a :: b :: rest => by
    have ih := noDoubleSeparator_iff (b :: rest)
    simp only [noDoubleSeparator] at ih
    simp only [noDoubleSeparator, hasDoubleSeparator, Bool.or_eq_false_iff,
      Bool.and_eq_false_imp, List.chain'_cons, ih, not_and, Bool.not_eq_true]

theorem collapse_step_noDouble (s : CStr) (p : Nat) (hs0 : noDoubleSeparator s)
    (hf : strstr s "/../".toList = some (p + 1)) :
    noDoubleSeparator (s.drop (p + 1 + 4)) ∧
      (prevSlash s p ≠ 0 →
        noDoubleSeparator (s.take (prevSlash s p + 1) ++ s.drop (p + 1 + 4))) := by
  simp only [noDoubleSeparator_iff] at hs0 ⊢
  have hs := hs0
  refine ⟨hs.drop _, fun hq => ?_⟩
  obtain ⟨_, _, hsw⟩ := strstrFrom_some _ s 0 (p + 1) hf
  obtain ⟨B, hB⟩ := (startsWith_iff _ _).1 hsw
  simp only [Nat.sub_zero] at hB
  have h4 : s.drop (p + 4) = '/' :: B := by
    have : s.drop (p + 4) = (s.drop (p + 1)).drop 3 := by
      rw [List.drop_drop]
    rw [this, hB]
    rfl
  have h5 : s.drop (p + 1 + 4) = B := by
    have : s.drop (p + 1 + 4) = (s.drop (p + 1)).drop 4 := by
      rw [List.drop_drop, Nat.add_comm]
    rw [this, hB]
    rfl
  have hslash := prevSlash_slash s p hq
  have htake : s.take (prevSlash s p + 1) = s.take (prevSlash s p) ++ ['/'] := by
    rw [List.take_succ, hslash]
    rfl
  rw [h5, htake]
  have c1 := hs.take (prevSlash s p + 1)
  rw [htake] at c1
  have c2 := hs.drop (p + 4)
  rw [h4] at c2
  exact List.Chain'.append_overlap c1 c2 (by simp)

theorem collapsePrevDir_noDouble : ∀ (fuel : Nat) (s r : CStr), noDoubleSeparator s →
    collapsePrevDir 4 fuel s = .ok r → noDoubleSeparator r
  | 0, s, r, _, hr => by simp [collapsePrevDir] at hr
  | fuel + 1, s, r, hs, hr => by
    unfold collapsePrevDir at hr
    cases hf : strstr s "/../".toList with
    | none =>
      rw [hf] at hr
      simp only [Run.ok.injEq] at hr
      rw [← hr]
      exact hs
    | some k =>
      cases k with
      | zero =>
        rw [hf] at hr
        simp only [Run.ok.injEq] at hr
        rw [← hr]
        exact hs
      | succ p =>
        rw [hf] at hr
        simp only at hr
        obtain ⟨hd, ht⟩ := collapse_step_noDouble s p hs hf
        by_cases hb : p + 1 + 4 ≤ s.length
        · rw [if_pos hb] at hr
          by_cases hq : prevSlash s p = 0
          · rw [if_pos hq] at hr
            exact collapsePrevDir_noDouble fuel _ r hd hr
          · rw [if_neg hq] at hr
            exact collapsePrevDir_noDouble fuel _ r (ht hq) hr
        · rw [if_neg hb] at hr
          cases hr

theorem removeTrailingSlash_noTrailing (s : CStr) (hs0 : noDoubleSeparator s) :
    noTrailingSeparator (removeTrailingSlash s) := by
  have hs := (noDoubleSeparator_iff s).1 hs0
  unfold removeTrailingSlash
  cases hl : s.getLast? with
  | none =>
    intro c hc
    rw [hl] at hc
    cases hc
  | some lastC =>
    have hsplit : s.dropLast ++ [lastC] = s := List.dropLast_append_getLast? lastC hl
    by_cases hsep : (lastC == '\\' || lastC == '/') = true
    · simp only [hsep, if_true]
      intro c hc
      have hsplit2 : s.dropLast.dropLast ++ [c] = s.dropLast :=
        List.dropLast_append_getLast? c hc
      have hchain : List.Chain' (fun a b => ¬ (isSeparator a = true ∧ isSeparator b = true))
          (s.dropLast.dropLast ++ [c, lastC]) := by
        have e : s.dropLast.dropLast ++ [c, lastC] = s := by
          rw [← hsplit, ← hsplit2]
          simp
        rw [e]
        exact hs
      have hpair := List.chain'_pair.1 (List.Chain'.right_of_append hchain)
      have hlast : isSeparator lastC = true := by
        simp only [Bool.or_eq_true, beq_iff_eq] at hsep
        rcases hsep with e | e <;> simp [isSeparator, e]
      cases hc' : isSeparator c with
      | false => rfl
      | true => exact absurd ⟨hc', hlast⟩ hpair
    · simp only [hsep, Bool.false_eq_true, if_false]
      intro c hc
      rw [hl] at hc
      cases hc
      simp only [Bool.or_eq_true, beq_iff_eq, not_or] at hsep
      simp [isSeparator, hsep.1, hsep.2]

/-- C5 as stated fails: `/vsizip/a.zip/b//` resolves to the inner path `b/`,
which ends with a separator. -/
theorem splitFilename_trailing_separator_left :
    SplitFilename zipHandler [] "/vsizip/a.zip/b//".toList =
        .ok (some ("a.zip".toList, "b/".toList)) ∧
      ¬ noTrailingSeparator "b/".toList := by
  refine ⟨by decide, fun hn => ?_⟩
  exact absurd (hn '/' (by decide)) (by decide)

theorem firstBoundary_unique (h : VSIArchiveFilesystemHandler) (fl : FileList) (s : CStr)
    (i k : Nat) (hi : firstBoundary h fl s i) (hk : firstBoundary h fl s k) : i = k := by
  rcases Nat.lt_trichotomy i k with hlt | heq | hgt
  · have := hk.2.2 i hlt
    rw [hi.2.1] at this
    cases this
  · exact heq
  · have := hi.2.2 k hgt
    rw [hk.2.1] at this
    cases this

/-- C5, amended: one trailing separator is stripped. For every handler and
every path that SplitFilename resolves, when the extension matched at the
boundary (the first offset `i` at which the scan confirms an archive) has four
characters and the part of the stripped path behind the archive path and the
character after it has no two neighbouring separators, the inner path returned
does not end with a separator. -/
theorem splitFilename_no_trailing_separator (h : VSIArchiveFilesystemHandler)
    (fl : FileList) (path s archive inner : CStr) (i : Nat)
    (hs : skipPrefix h path = .ok s)
    (hr : SplitFilename h fl path = .ok (some (archive, inner)))
    (hi : firstBoundary h fl s i)
    (hfour : matchExtension h.GetExtensions (s.drop i) = 4)
    (hnd : noDoubleSeparator (s.drop (archive.length + 1))) :
    noTrailingSeparator inner := by
  obtain ⟨s', k, hs', hb, ha, hf⟩ := splitFilename_sound h fl path archive inner hr
  rw [hs] at hs'
  cases hs'
  have hik : i = k := firstBoundary_unique h fl s i k hi hb
  subst hik
  obtain ⟨hn, _⟩ := (confirmedAt_iff h fl s i).1 hb.2.1
  obtain ⟨ext, _, _, hl, heq⟩ := matchExtension_pos h.GetExtensions (s.drop i) hn
  obtain ⟨hle, _⟩ := EQUALN_take ext (s.drop i) heq
  rw [hfour] at ha hf
  have halen : archive.length = i + 4 := by
    rw [ha, List.length_take]
    rw [List.length_drop, hl, hfour] at hle
    have := hb.1
    omega
  rw [halen] at hnd
  unfold fileInArchive at hf
  cases hrest : s.drop (i + 4) with
  | nil =>
    rw [hrest] at hf
    simp only [Run.ok.injEq] at hf
    rw [← hf]
    intro c hc
    cases hc
  | cons c0 raw =>
    rw [hrest] at hf
    have hraw : s.drop (i + 4 + 1) = raw := (drop_eq_cons_step hrest).1
    rw [hraw] at hnd
    simp only at hf
    cases hc : collapsePrevDir 4 (raw.length + 1) raw with
    | ok r =>
      rw [hc] at hf
      simp only [Run.ok.injEq] at hf
      rw [← hf]
      exact removeTrailingSlash_noTrailing r (collapsePrevDir_noDouble _ raw r hnd hc)
    | outOfBounds => rw [hc] at hf; cases hf
    | outOfFuel => rw [hc] at hf; cases hf

/-- C5 amended, at the path `/vsitar/x.tar/doc/x/../` of the tar-like handler,
whose list also holds the seven-character `.tar.gz`; the extension matched is
`.tar`. -/
theorem splitFilename_no_trailing_separator_witness :
    SplitFilename tarHandler [] "/vsitar/x.tar/doc/x/../".toList =
        .ok (some ("x.tar".toList, "doc".toList)) ∧
      matchExtension tarHandler.GetExtensions ("x.tar/doc/x/../".toList.drop 1) = 4 ∧
      noTrailingSeparator "doc".toList :=
  ⟨by decide, by decide,
    splitFilename_no_trailing_separator tarHandler [] "/vsitar/x.tar/doc/x/../".toList
      "x.tar/doc/x/../".toList "x.tar".toList "doc".toList 1 (by decide) (by decide)
      (by decide) (by decide) (by decide)⟩

/-! ## Lemmas on GetContentOfArchive -/

theorem entryOfCurrent_cons (files rest : List ReaderFile) (f : ReaderFile) :
    entryOfCurrent { files := files, cur := f :: rest } = entryOfFile f := rfl

theorem readEntries_spec (files : List ReaderFile) : ∀ (rest : List ReaderFile)
    (f : ReaderFile) (acc : List VSIArchiveEntry),
    ∃ r', readEntries (rest.length + 1) { files := files, cur := f :: rest } acc =
      .ok (acc ++ (f :: rest).map entryOfFile, r')
  | [], f, acc => ⟨{ files := files, cur := [f] }, by
      simp [readEntries, VSIArchiveReader.GotoNextFile, entryOfCurrent_cons]⟩
  | g :: rest, f, acc => by
    obtain ⟨r', hr'⟩ := readEntries_spec files rest g (acc ++ [entryOfFile f])
    refine ⟨r', ?_⟩
    rw [List.length_cons]
    unfold readEntries
    simp only [VSIArchiveReader.GotoNextFile, entryOfCurrent_cons]
    rw [hr']
    simp

theorem getContent_hit (h : VSIArchiveFilesystemHandler) (fl : FileList) (a : CStr)
    (p : Option VSIArchiveReader) (c : VSIArchiveContent) (hc : fl.find a = some c) :
    GetContentOfArchive h fl a p = .ok (some c, fl, p) := by
  unfold GetContentOfArchive
  rw [hc]

theorem getContent_no_reader (h : VSIArchiveFilesystemHandler) (fl : FileList) (a : CStr)
    (p : Option VSIArchiveReader) (hm : fl.find a = none)
    (hc : obtainReader h a p = none) :
    GetContentOfArchive h fl a p = .ok (none, fl, p) := by
  unfold GetContentOfArchive
  rw [hm]
  simp only [hc]

theorem getContent_empty_reader (h : VSIArchiveFilesystemHandler) (fl : FileList) (a : CStr)
    (p : Option VSIArchiveReader) (r : VSIArchiveReader) (hm : fl.find a = none)
    (hr : obtainReader h a p = some r) (hfail : r.GotoFirstFile.1 = false) :
    GetContentOfArchive h fl a p = .ok (none, fl, p.map fun _ => r.GotoFirstFile.2) := by
  unfold GetContentOfArchive
  rw [hm]
  simp only [hr]
  cases hg : r.GotoFirstFile with
  | mk b r1 =>
    rw [hg] at hfail
    simp only at hfail
    subst hfail
    rfl

theorem gotoFirstFile_fst (r : VSIArchiveReader) :
    (r.GotoFirstFile.1 = false ↔ r.files = []) ∧
      (r.files ≠ [] → r.GotoFirstFile = (true, { files := r.files, cur := r.files })) := by
  unfold VSIArchiveReader.GotoFirstFile
  cases hf : r.files with
  | nil => simp
  | cons f rest => simp

theorem getContent_fresh (h : VSIArchiveFilesystemHandler) (fl : FileList) (a : CStr)
    (p : Option VSIArchiveReader) (r : VSIArchiveReader) (hm : fl.find a = none)
    (hr : obtainReader h a p = some r) (hne : r.files ≠ []) :
    ∃ r', GetContentOfArchive h fl a p =
      .ok (some { entries := r.files.map entryOfFile },
        (a, { entries := r.files.map entryOfFile }) :: fl, r') := by
  unfold GetContentOfArchive
  rw [hm]
  simp only [hr]
  rw [(gotoFirstFile_fst r).2 hne]
  simp only
  cases hfiles : r.files with
  | nil => exact absurd hfiles hne
  | cons f rest =>
    obtain ⟨r', hr'⟩ := readEntries_spec (f :: rest) rest f []
    simp only [List.length_cons, List.nil_append] at hr' ⊢
    rw [hr']
    exact ⟨_, rfl⟩

theorem find_cons_self (fl : FileList) (a : CStr) (c : VSIArchiveContent) :
    FileList.find ((a, c) :: fl) a = some c := by
  simp [FileList.find]

theorem getContent_total (h : VSIArchiveFilesystemHandler) (fl : FileList) (a : CStr)
    (p : Option VSIArchiveReader) :
    ∃ res fl' r', GetContentOfArchive h fl a p = .ok (res, fl', r') ∧ cacheGrows fl fl' ∧
      (res = none → fl' = fl) ∧ (∀ c, res = some c → fl'.find a = some c) := by
  cases hm : fl.find a with
  | some c =>
    exact ⟨some c, fl, p, getContent_hit h fl a p c hm, Or.inl rfl, fun _ => rfl,
      fun c' hc' => by rw [← hc']; exact hm⟩
  | none =>
    cases hr : obtainReader h a p with
    | none =>
      exact ⟨none, fl, p, getContent_no_reader h fl a p hm hr, Or.inl rfl, fun _ => rfl,
        fun c hc' => by cases hc'⟩
    | some r =>
      by_cases hnil : r.files = []
      · exact ⟨none, fl, _,
          getContent_empty_reader h fl a p r hm hr ((gotoFirstFile_fst r).1.2 hnil),
          Or.inl rfl, fun _ => rfl, fun c hc' => by cases hc'⟩
      · obtain ⟨r', hr'⟩ := getContent_fresh h fl a p r hm hr hnil
        refine ⟨_, _, r', hr', Or.inr ⟨a, _, hm, rfl⟩, (fun hc' => by cases hc'), ?_⟩
        intro c hc'
        cases hc'
        exact find_cons_self fl a _

theorem entryOfFile_cases (f : ReaderFile) :
    (f.fileName.getLast? = none ∧
      entryOfFile f = ⟨f.fileName, f.fileSize, false, f.fileOffset⟩) ∨
    (∃ c, f.fileName.getLast? = some c ∧ isSeparator c = true ∧
      entryOfFile f = ⟨f.fileName.dropLast, f.fileSize, true, f.fileOffset⟩) ∨
    (∃ c, f.fileName.getLast? = some c ∧ isSeparator c = false ∧
      entryOfFile f = ⟨f.fileName, f.fileSize, false, f.fileOffset⟩) := by
  have hdef : entryOfFile f = (match f.fileName.getLast? with
    | some lastC =>
      if lastC == '/' || lastC == '\\' then
        { fileName := f.fileName.dropLast, uncompressed_size := f.fileSize,
          bIsDir := true, file_pos := f.fileOffset }
      else
        { fileName := f.fileName, uncompressed_size := f.fileSize,
          bIsDir := false, file_pos := f.fileOffset }
    | none =>
      { fileName := f.fileName, uncompressed_size := f.fileSize,
        bIsDir := false, file_pos := f.fileOffset }) := rfl
  cases hl : f.fileName.getLast? with
  | none =>
    left
    rw [hdef, hl]
    exact ⟨rfl, rfl⟩
  | some c =>
    right
    rw [hl] at hdef
    by_cases hsep : (c == '/' || c == '\\') = true
    · left
      refine ⟨c, rfl, hsep, ?_⟩
      rw [hdef]
      simp only [hsep, if_true]
    · right
      refine ⟨c, rfl, by simpa [isSeparator] using hsep, ?_⟩
      rw [hdef]
      simp only [hsep, Bool.false_eq_true, if_false]

theorem forall₂_map_entryOfFile (R : VSIArchiveEntry → ReaderFile → Prop)
    (hR : ∀ f, R (entryOfFile f) f) (files : List ReaderFile) :
    List.Forall₂ R (files.map entryOfFile) files := by
  rw [List.forall₂_map_left_iff, List.forall₂_same]
  exact fun f _ => hR f

/-! ## C6, C8, C9 and C10: populating and searching the content -/

/-- C6: for an archive path that is not cached and a reader with a non-empty
list of entries, GetContentOfArchive returns a content with one entry per
reader entry, in the reader's order; an entry is a directory exactly when the
raw name has a last character and that character is '/' or '\\'; its name is
the raw name without that character when it is a directory and the raw name
otherwise; size and offset token are the reader's. -/
theorem getContentOfArchive_entries (h : VSIArchiveFilesystemHandler) (fl : FileList)
    (a : CStr) (p : Option VSIArchiveReader) (r : VSIArchiveReader)
    (hm : fl.find a = none) (hr : obtainReader h a p = some r) (hne : r.files ≠ []) :
    ∃ content r', GetContentOfArchive h fl a p = .ok (some content, (a, content) :: fl, r') ∧
      List.Forall₂ (fun e f =>
        (e.bIsDir = true ↔ ∃ c, f.fileName.getLast? = some c ∧ (c = '/' ∨ c = '\\')) ∧
        e.fileName = (if e.bIsDir = true then f.fileName.dropLast else f.fileName) ∧
        e.uncompressed_size = f.fileSize ∧ e.file_pos = f.fileOffset)
        content.entries r.files := by
  obtain ⟨r', hr'⟩ := getContent_fresh h fl a p r hm hr hne
  refine ⟨_, r', hr', forall₂_map_entryOfFile _ (fun f => ?_) r.files⟩
  rcases entryOfFile_cases f with ⟨hl, he⟩ | ⟨c, hl, hc, he⟩ | ⟨c, hl, hc, he⟩
  · rw [he, hl]
    simp
  · rw [he, hl]
    simp only [isSeparator, Bool.or_eq_true, beq_iff_eq] at hc
    simp [hc]
  · rw [he, hl]
    simp only [isSeparator, Bool.or_eq_false_iff, beq_eq_false_iff_ne] at hc
    simp [hc.1, hc.2]

/-- C6, at the archive `demo.zip` read through a newly created reader. -/
theorem getContentOfArchive_entries_witness :
    ∃ content r', GetContentOfArchive demoHandler [] "demo.zip".toList none =
        .ok (some content, ("demo.zip".toList, content) :: [], r') ∧
      List.Forall₂ (fun e f =>
        (e.bIsDir = true ↔ ∃ c, f.fileName.getLast? = some c ∧ (c = '/' ∨ c = '\\')) ∧
        e.fileName = (if e.bIsDir = true then f.fileName.dropLast else f.fileName) ∧
        e.uncompressed_size = f.fileSize ∧ e.file_pos = f.fileOffset)
        content.entries demoReader.files :=
  getContentOfArchive_entries demoHandler [] "demo.zip".toList none demoReader
    (by decide) (by decide) (by decide)

/-- C8: when the archive path is not cached and no reader can be created, or
GotoFirstFile of the reader in use fails, GetContentOfArchive returns NULL and
the cache is the one it was given. -/
theorem getContentOfArchive_reader_failure (h : VSIArchiveFilesystemHandler)
    (fl : FileList) (a : CStr) (p : Option VSIArchiveReader)
    (hm : fl.find a = none)
    (hfail : obtainReader h a p = none ∨
      ∃ r, obtainReader h a p = some r ∧ r.GotoFirstFile.1 = false) :
    ∃ r', GetContentOfArchive h fl a p = .ok (none, fl, r') ∧ fl.find a = none := by
  rcases hfail with hn | ⟨r, hr, hg⟩
  · exact ⟨p, getContent_no_reader h fl a p hm hn, hm⟩
  · exact ⟨_, getContent_empty_reader h fl a p r hm hr hg, hm⟩

/-- C8, at `a.zip` with a handler that cannot create a reader. -/
theorem getContentOfArchive_reader_failure_witness :
    ∃ r', GetContentOfArchive zipHandler [] "a.zip".toList none = .ok (none, [], r') ∧
      FileList.find [] "a.zip".toList = none :=
  getContentOfArchive_reader_failure zipHandler [] "a.zip".toList none (by decide)
    (Or.inl (by decide))

theorem entryOfFile_name (f : ReaderFile) :
    (noTrailingSeparator f.fileName → (entryOfFile f).fileName = f.fileName) ∧
    (∀ c, f.fileName.getLast? = some c → isSeparator c = true →
      f.fileName = (entryOfFile f).fileName ++ [c]) ∧
    ((∀ c ∈ f.fileName, c ≠ '\\') → ∀ c ∈ (entryOfFile f).fileName, c ≠ '\\') ∧
    (endsWithTwoSeparators f.fileName = false →
      noTrailingSeparator (entryOfFile f).fileName) := by
  rcases entryOfFile_cases f with ⟨hl, he⟩ | ⟨c, hl, hc, he⟩ | ⟨c, hl, hc, he⟩
  · rw [he]
    refine ⟨fun _ => rfl, ?_, fun hb => hb, ?_⟩
    · intro c hc
      rw [hl] at hc
      cases hc
    · intro _ c hc
      rw [hl] at hc
      cases hc
  · rw [he]
    have hsplit : f.fileName.dropLast ++ [c] = f.fileName :=
      List.dropLast_append_getLast? c hl
    refine ⟨?_, ?_, ?_, ?_⟩
    · intro hnt
      have := hnt c hl
      rw [hc] at this
      cases this
    · intro c' hc' _
      rw [hl] at hc'
      cases hc'
      exact hsplit.symm
    · intro hb c' hc'
      exact hb c' (List.mem_of_mem_dropLast hc')
    · intro htwo c' hc'
      have hsplit2 : f.fileName.dropLast.dropLast ++ [c'] = f.fileName.dropLast :=
        List.dropLast_append_getLast? c' hc'
      have hrev : f.fileName.reverse = c :: c' :: f.fileName.dropLast.dropLast.reverse := by
        rw [← hsplit, ← hsplit2]
        simp
      unfold endsWithTwoSeparators at htwo
      rw [hrev] at htwo
      simp only [Bool.and_eq_false_imp] at htwo
      exact htwo hc
  · rw [he]
    refine ⟨fun _ => rfl, ?_, fun hb => hb, ?_⟩
    · intro c' hc' hsep
      rw [hl] at hc'
      cases hc'
      rw [hc] at hsep
      cases hsep
    · intro _ c' hc'
      rw [hl] at hc'
      cases hc'
      exact hc

/-- C9 as stated fails: for the raw name `dir\sub//` the stored name is
`dir\sub/`, which contains a backslash and ends with a separator. -/
theorem getContentOfArchive_name_not_normalized :
    GetContentOfArchive zipHandler [] "a.zip".toList (some backslashReader) =
        .ok (some ⟨[⟨"dir\\sub/".toList, 0, true, 0⟩]⟩,
          [("a.zip".toList, ⟨[⟨"dir\\sub/".toList, 0, true, 0⟩]⟩)],
          some ⟨backslashReader.files, backslashReader.files⟩) ∧
      '\\' ∈ "dir\\sub/".toList ∧ ¬ noTrailingSeparator "dir\\sub/".toList := by
  refine ⟨by decide, by decide, fun hn => ?_⟩
  exact absurd (hn '/' (by decide)) (by decide)

/-- C9, amended: every entry name stored by GetContentOfArchive is the raw name
with one trailing separator removed when the raw name ends with one, and the
raw name itself otherwise; separators inside the name are kept as reported. So
the stored name has no backslash when the raw name has none, and it has no
trailing separator when the raw name does not end with two separators. -/
theorem getContentOfArchive_names (h : VSIArchiveFilesystemHandler) (fl : FileList)
    (a : CStr) (p : Option VSIArchiveReader) (r : VSIArchiveReader)
    (hm : fl.find a = none) (hr : obtainReader h a p = some r) (hne : r.files ≠ []) :
    ∃ content r', GetContentOfArchive h fl a p = .ok (some content, (a, content) :: fl, r') ∧
      List.Forall₂ (fun e f =>
        (noTrailingSeparator f.fileName → e.fileName = f.fileName) ∧
        (∀ c, f.fileName.getLast? = some c → isSeparator c = true →
          f.fileName = e.fileName ++ [c]) ∧
        ((∀ c ∈ f.fileName, c ≠ '\\') → ∀ c ∈ e.fileName, c ≠ '\\') ∧
        (endsWithTwoSeparators f.fileName = false → noTrailingSeparator e.fileName))
        content.entries r.files := by
  obtain ⟨r', hr'⟩ := getContent_fresh h fl a p r hm hr hne
  exact ⟨_, r', hr', forall₂_map_entryOfFile _ entryOfFile_name r.files⟩

/-- C9 amended, at the archive `demo.zip` read through the caller's reader. -/
theorem getContentOfArchive_names_witness :
    ∃ content r', GetContentOfArchive zipHandler [] "demo.zip".toList (some demoReader) =
        .ok (some content, ("demo.zip".toList, content) :: [], r') ∧
      List.Forall₂ (fun e f =>
        (noTrailingSeparator f.fileName → e.fileName = f.fileName) ∧
        (∀ c, f.fileName.getLast? = some c → isSeparator c = true →
          f.fileName = e.fileName ++ [c]) ∧
        ((∀ c ∈ f.fileName, c ≠ '\\') → ∀ c ∈ e.fileName, c ≠ '\\') ∧
        (endsWithTwoSeparators f.fileName = false → noTrailingSeparator e.fileName))
        content.entries demoReader.files :=
  getContentOfArchive_names zipHandler [] "demo.zip".toList (some demoReader) demoReader
    (by decide) (by decide) (by decide)

theorem findEntry_some (name : CStr) : ∀ (l : List VSIArchiveEntry) (e : VSIArchiveEntry),
    findEntry name l = some e →
    ∃ pre post, l = pre ++ e :: post ∧ e.fileName = name ∧ ∀ x ∈ pre, x.fileName ≠ name
  | [], e, he => by simp [findEntry] at he
  | x :: l, e, he => by
    unfold findEntry at he
    by_cases hx : name = x.fileName
    · rw [if_pos hx] at he
      cases he
      exact ⟨[], l, rfl, hx.symm, fun y hy => by cases hy⟩
    · rw [if_neg hx] at he
      obtain ⟨pre, post, hl, hn, hpre⟩ := findEntry_some name l e he
      refine ⟨x :: pre, post, by rw [hl]; rfl, hn, ?_⟩
      intro y hy
      rcases List.mem_cons.1 hy with h1 | h1
      · rw [h1]
        exact fun e' => hx e'.symm
      · exact hpre y h1

theorem findEntry_isSome (name : CStr) : ∀ (l : List VSIArchiveEntry),
    (findEntry name l).isSome = true ↔ ∃ e ∈ l, e.fileName = name
  | [] => by simp [findEntry]
  | x :: l => by
    unfold findEntry
    by_cases hx : name = x.fileName
    · rw [if_pos hx]
      simp [hx]
    · rw [if_neg hx, findEntry_isSome name l]
      have hx' : ¬ x.fileName = name := fun e => hx e.symm
      simp [hx']

/-- C10: FindFileInArchive succeeds exactly when the inner name is not NULL,
GetContentOfArchive yields a content for the archive, and some entry of that
content has a name equal to the inner name; the entry it returns is then the
first entry with that name in the order of the content. -/
theorem findFileInArchive_first_match (h : VSIArchiveFilesystemHandler) (fl : FileList)
    (a : CStr) (fileInArchiveName : Option CStr) :
    ∃ res fl', FindFileInArchive h fl a fileInArchiveName = .ok (res, fl') ∧
      (res.isSome = true ↔ ∃ name content r', fileInArchiveName = some name ∧
        GetContentOfArchive h fl a none = .ok (some content, fl', r') ∧
        ∃ e ∈ content.entries, e.fileName = name) ∧
      (∀ e, res = some e → ∃ name content r' pre post, fileInArchiveName = some name ∧
        GetContentOfArchive h fl a none = .ok (some content, fl', r') ∧
        content.entries = pre ++ e :: post ∧ e.fileName = name ∧
        ∀ x ∈ pre, x.fileName ≠ name) := by
  cases fileInArchiveName with
  | none =>
    refine ⟨none, fl, rfl, ?_, ?_⟩
    · simp
    · intro e he
      cases he
  | some name =>
    obtain ⟨res, fl', r', hg, _, _, _⟩ := getContent_total h fl a none
    cases res with
    | none =>
      refine ⟨none, fl', by simp [FindFileInArchive, hg], ?_, ?_⟩
      · simp [hg]
      · intro e he
        cases he
    | some content =>
      refine ⟨findEntry name content.entries, fl', by simp [FindFileInArchive, hg], ?_, ?_⟩
      · rw [findEntry_isSome]
        constructor
        · intro hex
          exact ⟨name, content, r', rfl, hg, hex⟩
        · rintro ⟨name', content', r'', hn, hg', hex⟩
          cases hn
          rw [hg] at hg'
          cases hg'
          exact hex
      · intro e he
        obtain ⟨pre, post, hl, hn, hpre⟩ := findEntry_some name content.entries e he
        exact ⟨name, content, r', pre, post, rfl, hg, hl, hn, hpre⟩

/-! ## C7: cached content is never replaced -/

theorem cacheGrows_find {fl fl' : FileList} (hg : cacheGrows fl fl') (a : CStr)
    (c : VSIArchiveContent) (hc : fl.find a = some c) : fl'.find a = some c := by
  rcases hg with h1 | ⟨k, c', hk, h1⟩
  · rw [h1]
    exact hc
  · rw [h1]
    unfold FileList.find
    by_cases hka : k = a
    · rw [hka, hc] at hk
      cases hk
    · rw [if_neg hka]
      exact hc

theorem getContent_cacheGrows (h : VSIArchiveFilesystemHandler) (fl fl' : FileList)
    (a : CStr) (p r' : Option VSIArchiveReader) (res : Option VSIArchiveContent)
    (hr : GetContentOfArchive h fl a p = .ok (res, fl', r')) : cacheGrows fl fl' := by
  obtain ⟨res0, fl0, r0, hg, hgrow, _, _⟩ := getContent_total h fl a p
  rw [hg] at hr
  cases hr
  exact hgrow

theorem findFile_cacheGrows (h : VSIArchiveFilesystemHandler) (fl fl' : FileList)
    (a : CStr) (name : Option CStr) (res : Option VSIArchiveEntry)
    (hr : FindFileInArchive h fl a name = .ok (res, fl')) : cacheGrows fl fl' := by
  unfold FindFileInArchive at hr
  split at hr
  · cases hr
    exact Or.inl rfl
  · split at hr
    · rename_i hg
      cases hr
      exact getContent_cacheGrows _ _ _ _ _ _ _ hg
    · rename_i hg
      cases hr
      exact getContent_cacheGrows _ _ _ _ _ _ _ hg
    · cases hr
    · cases hr

theorem openOnlyFile_cacheGrows (h : VSIArchiveFilesystemHandler) (fl fl' : FileList)
    (a : CStr) (r : VSIArchiveReader) (res : Option VSIArchiveReader) (msg : Option CStr)
    (hr : openOnlyFile h fl a r = .ok (res, fl', msg)) : cacheGrows fl fl' := by
  unfold openOnlyFile at hr
  repeat' split at hr
  all_goals first
    | (cases hr; exact Or.inl rfl)
    | (cases hr; rename_i hg; exact getContent_cacheGrows _ _ _ _ _ _ _ hg)
    | cases hr

theorem openArchiveFile_cacheGrows (h : VSIArchiveFilesystemHandler) (fl fl' : FileList)
    (a : CStr) (name : Option CStr) (res : Option VSIArchiveReader) (msg : Option CStr)
    (hr : OpenArchiveFile h fl a name = .ok (res, fl', msg)) : cacheGrows fl fl' := by
  unfold OpenArchiveFile at hr
  split at hr
  · cases hr
    exact Or.inl rfl
  · split at hr
    · exact openOnlyFile_cacheGrows _ _ _ _ _ _ _ hr
    · repeat' split at hr
      all_goals first
        | (cases hr; rename_i hg; exact findFile_cacheGrows _ _ _ _ _ _ hg)
        | cases hr

theorem stat_cacheGrows (h : VSIArchiveFilesystemHandler) (longBits : Nat)
    (fl fl' : FileList) (path : CStr) (ret : Int) (buf : Option VSIStatBufL)
    (hr : Stat h longBits fl path = .ok (ret, buf, fl')) : cacheGrows fl fl' := by
  unfold Stat at hr
  repeat' split at hr
  all_goals first
    | (cases hr; exact Or.inl rfl)
    | (cases hr; rename_i hg; exact findFile_cacheGrows _ _ _ _ _ _ hg)
    | (cases hr; rename_i hg; exact openArchiveFile_cacheGrows _ _ _ _ _ _ _ hg)
    | cases hr

theorem readDir_cacheGrows (h : VSIArchiveFilesystemHandler) (fl fl' : FileList)
    (path : CStr) (names : List CStr)
    (hr : ReadDir h fl path = .ok (names, fl')) : cacheGrows fl fl' := by
  unfold ReadDir at hr
  repeat' split at hr
  all_goals first
    | (cases hr; exact Or.inl rfl)
    | (cases hr; rename_i hg; exact getContent_cacheGrows _ _ _ _ _ _ _ hg)
    | cases hr

theorem run_cacheGrows (h : VSIArchiveFilesystemHandler) (fl fl' : FileList)
    (op : Operation) (hr : op.run h fl = .ok fl') : cacheGrows fl fl' := by
  cases op with
  | getContentOfArchive a r =>
    simp only [Operation.run] at hr
    split at hr
    · rename_i hg
      cases hr
      exact getContent_cacheGrows _ _ _ _ _ _ _ hg
    · cases hr
    · cases hr
  | findFileInArchive a f =>
    simp only [Operation.run] at hr
    split at hr
    · rename_i hg
      cases hr
      exact findFile_cacheGrows _ _ _ _ _ _ hg
    · cases hr
    · cases hr
  | splitFilename p =>
    simp only [Operation.run] at hr
    split at hr
    · cases hr
      exact Or.inl rfl
    · cases hr
    · cases hr
  | openArchiveFile a f =>
    simp only [Operation.run] at hr
    split at hr
    · rename_i hg
      cases hr
      exact openArchiveFile_cacheGrows _ _ _ _ _ _ _ hg
    · cases hr
    · cases hr
  | stat longBits p =>
    simp only [Operation.run] at hr
    split at hr
    · rename_i hg
      cases hr
      exact stat_cacheGrows _ _ _ _ _ _ _ hg
    · cases hr
    · cases hr
  | readDir p =>
    simp only [Operation.run] at hr
    split at hr
    · rename_i hg
      cases hr
      exact readDir_cacheGrows _ _ _ _ _ hg
    · cases hr
    · cases hr
  | unlink p =>
    cases hr
    exact Or.inl rfl
  | rename a b =>
    cases hr
    exact Or.inl rfl
  | mkdir p m =>
    cases hr
    exact Or.inl rfl
  | rmdir p =>
    cases hr
    exact Or.inl rfl

theorem runAll_find : ∀ (ops : List (VSIArchiveFilesystemHandler × Operation))
    (fl fl' : FileList) (a : CStr) (c : VSIArchiveContent),
    runAll fl ops = .ok fl' → fl.find a = some c → fl'.find a = some c
  | [], fl, fl', a, c, hr, hc => by
    unfold runAll at hr
    cases hr
    exact hc
  | (h, op) :: rest, fl, fl', a, c, hr, hc => by
    unfold runAll at hr
    split at hr
    · rename_i fl1 hop
      exact runAll_find rest fl1 fl' a c hr
        (cacheGrows_find (run_cacheGrows h fl fl1 op hop) a c hc)
    · cases hr
    · cases hr

/-- C7: once GetContentOfArchive has returned a content for the archive path
`a`, then after any sequence of handler operations that runs to its end, the
cache still maps `a` to that content, and every further GetContentOfArchive on
`a`, with any handler environment and with any reader or none, returns that
content, leaves the cache as it is and hands the reader back untouched. -/
theorem cached_content_stable (h0 : VSIArchiveFilesystemHandler) (fl0 fl1 fl2 : FileList)
    (a : CStr) (p0 p0' : Option VSIArchiveReader) (c : VSIArchiveContent)
    (ops : List (VSIArchiveFilesystemHandler × Operation))
    (hfirst : GetContentOfArchive h0 fl0 a p0 = .ok (some c, fl1, p0'))
    (hrun : runAll fl1 ops = .ok fl2) :
    fl2.find a = some c ∧
      ∀ (h : VSIArchiveFilesystemHandler) (p : Option VSIArchiveReader),
        GetContentOfArchive h fl2 a p = .ok (some c, fl2, p) := by
  obtain ⟨res, fl', r', hg, _, _, hfind⟩ := getContent_total h0 fl0 a p0
  rw [hg] at hfirst
  cases hfirst
  have h2 := runAll_find ops fl1 fl2 a c hrun (hfind c rfl)
  exact ⟨h2, fun h p => getContent_hit h fl2 a p c h2⟩

/-- C7, for `demo.zip`: after it is read, a listing, a stat, a failed unlink
and the reading of another archive leave its content in place. -/
theorem cached_content_stable_witness :
    FileList.find [("a.zip".toList, ⟨[⟨"dir\\sub/".toList, 0, true, 0⟩]⟩),
        ("demo.zip".toList, demoContent)] "demo.zip".toList = some demoContent ∧
      ∀ (h : VSIArchiveFilesystemHandler) (p : Option VSIArchiveReader),
        GetContentOfArchive h [("a.zip".toList, ⟨[⟨"dir\\sub/".toList, 0, true, 0⟩]⟩),
          ("demo.zip".toList, demoContent)] "demo.zip".toList p =
          .ok (some demoContent, [("a.zip".toList, ⟨[⟨"dir\\sub/".toList, 0, true, 0⟩]⟩),
            ("demo.zip".toList, demoContent)], p) :=
  cached_content_stable demoHandler [] [("demo.zip".toList, demoContent)]
    [("a.zip".toList, ⟨[⟨"dir\\sub/".toList, 0, true, 0⟩]⟩), ("demo.zip".toList, demoContent)]
    "demo.zip".toList none none demoContent
    [(demoHandler, .readDir "/ovl/demo.zip/src".toList),
      (demoHandler, .stat 64 "/ovl/demo.zip/readme.txt".toList),
      (demoHandler, .unlink "/ovl/demo.zip/readme.txt".toList),
      (zipHandler, .getContentOfArchive "a.zip".toList (some backslashReader)),
      (demoHandler, .openArchiveFile "demo.zip".toList none)]
    (by decide) (by decide)

/-! ## C11, C12 and C13: OpenArchiveFile -/

theorem entryOfFile_bIsDir (f : ReaderFile) :
    (entryOfFile f).bIsDir = endsWithSeparator f.fileName := by
  unfold endsWithSeparator
  rcases entryOfFile_cases f with ⟨hl, he⟩ | ⟨c, hl, hc, he⟩ | ⟨c, hl, hc, he⟩
  · rw [he, hl]
  · rw [he, hl]
    exact hc.symm
  · rw [he, hl]
    exact hc.symm

/-- Opening without an inner name an archive whose only entry `f` has a name
that does not end with a separator: the reader is returned positioned on
`f`. -/
theorem openOnlyFile_single (h : VSIArchiveFilesystemHandler) (fl : FileList) (a : CStr)
    (r : VSIArchiveReader) (f : ReaderFile) (hfiles : r.files = [f])
    (hc : endsWithSeparator f.fileName = false) :
    openOnlyFile h fl a r = .ok (some { files := [f], cur := [f] }, fl, none) := by
  unfold openOnlyFile
  simp only [VSIArchiveReader.GotoFirstFile, VSIArchiveReader.GotoNextFile,
    VSIArchiveReader.GetFileName, hfiles, hc, Bool.false_eq_true, if_false]

/-- Opening without an inner name an archive made of a directory marker `d`
followed by exactly one entry `f`: the reader is returned positioned on `f`. -/
theorem openOnlyFile_marker_then_one (h : VSIArchiveFilesystemHandler) (fl : FileList)
    (a : CStr) (r : VSIArchiveReader) (d f : ReaderFile)
    (hfiles : r.files = [d, f]) (hc : endsWithSeparator d.fileName = true) :
    openOnlyFile h fl a r = .ok (some { files := [d, f], cur := [f] }, fl, none) := by
  unfold openOnlyFile
  simp only [VSIArchiveReader.GotoFirstFile, VSIArchiveReader.GotoNextFile,
    VSIArchiveReader.GetFileName, hfiles, hc, if_true]

theorem openArchiveFile_no_name (h : VSIArchiveFilesystemHandler) (fl : FileList) (a : CStr)
    (r : VSIArchiveReader) (name : Option CStr) (hr : h.CreateReader a = some r)
    (hn : name = none ∨ name = some []) :
    OpenArchiveFile h fl a name = openOnlyFile h fl a r := by
  unfold OpenArchiveFile
  rw [hr]
  simp only [if_pos hn]

/-- C11: for every archive whose reader yields exactly one entry with a
non-directory name, or a directory marker followed by exactly one further
entry, OpenArchiveFile with a NULL or empty inner name returns the reader
positioned on that file entry and leaves the cache as it is. -/
theorem openArchiveFile_single_entry (h : VSIArchiveFilesystemHandler) (fl : FileList)
    (a : CStr) (r : VSIArchiveReader) (name : Option CStr) (f : ReaderFile)
    (hr : h.CreateReader a = some r) (hn : name = none ∨ name = some [])
    (hfiles : (r.files = [f] ∧ (entryOfFile f).bIsDir = false) ∨
      ∃ d, r.files = [d, f] ∧ (entryOfFile d).bIsDir = true) :
    ∃ reader, OpenArchiveFile h fl a name = .ok (some reader, fl, none) ∧
      reader.files = r.files ∧ reader.cur = [f] ∧
      reader.GetFileName = f.fileName ∧ reader.GetFileSize = f.fileSize ∧
      reader.GetFileOffset = f.fileOffset := by
  rw [openArchiveFile_no_name h fl a r name hr hn]
  rcases hfiles with ⟨h1, h2⟩ | ⟨d, h1, h2⟩
  · rw [entryOfFile_bIsDir] at h2
    exact ⟨_, openOnlyFile_single h fl a r f h1 h2, h1.symm, rfl, rfl, rfl, rfl⟩
  · rw [entryOfFile_bIsDir] at h2
    exact ⟨_, openOnlyFile_marker_then_one h fl a r d f h1 h2, h1.symm, rfl, rfl, rfl, rfl⟩

/-- C11, at `only.zip`, whose single entry is `data.bin`, opened with a NULL
inner name. -/
theorem openArchiveFile_single_entry_witness :
    ∃ reader, OpenArchiveFile
        (oneArchiveHandler "only.zip".toList (readerOf [⟨"data.bin".toList, 7, 0⟩])) []
        "only.zip".toList none = .ok (some reader, [], none) ∧
      reader.files = (readerOf [⟨"data.bin".toList, 7, 0⟩]).files ∧
      reader.cur = [⟨"data.bin".toList, 7, 0⟩] ∧
      reader.GetFileName = "data.bin".toList ∧ reader.GetFileSize = 7 ∧
      reader.GetFileOffset = 0 :=
  openArchiveFile_single_entry
    (oneArchiveHandler "only.zip".toList (readerOf [⟨"data.bin".toList, 7, 0⟩])) []
    "only.zip".toList (readerOf [⟨"data.bin".toList, 7, 0⟩]) none ⟨"data.bin".toList, 7, 0⟩
    (by decide) (Or.inl rfl) (Or.inl ⟨rfl, by decide⟩)

theorem listingLines_eq (h : VSIArchiveFilesystemHandler) (a : CStr) :
    ∀ (entries : List VSIArchiveEntry), listingLines h a entries =
      (entries.map (fun e => "  ".toList ++ h.GetPrefix ++ "/".toList ++ a ++ "/".toList ++
        e.fileName ++ "\n".toList)).flatten
  | [] => rfl
  | e :: rest => by
    unfold listingLines
    rw [listingLines_eq h a rest]
    simp

/-- Opening without an inner name an archive in which another entry follows
the first entry, or follows the entry after a leading directory marker: the
outcome is the one of GetContentOfArchive on the reader, with no reader
returned and the listing of the content as message. -/
theorem openOnlyFile_ambiguous (h : VSIArchiveFilesystemHandler) (fl : FileList) (a : CStr)
    (r : VSIArchiveReader) (f1 f2 : ReaderFile) (rest : List ReaderFile)
    (hfiles : r.files = f1 :: f2 :: rest)
    (hc : endsWithSeparator f1.fileName = false ∨ rest ≠ []) :
    ∃ cur, openOnlyFile h fl a r =
      (match GetContentOfArchive h fl a (some { files := r.files, cur := cur }) with
      | .ok (content, fl', _) => .ok (none, fl', some (ambiguousMessage h a content))
      | .outOfBounds => .outOfBounds
      | .outOfFuel => .outOfFuel) := by
  unfold openOnlyFile
  cases hsep : endsWithSeparator f1.fileName with
  | false =>
    refine ⟨f2 :: rest, ?_⟩
    simp only [VSIArchiveReader.GotoFirstFile, VSIArchiveReader.GotoNextFile,
      VSIArchiveReader.GetFileName, hfiles, hsep, Bool.false_eq_true, if_false]
  | true =>
    rw [hsep] at hc
    have hrest : rest ≠ [] := by
      rcases hc with h1 | h1
      · cases h1
      · exact h1
    cases rest with
    | nil => exact absurd rfl hrest
    | cons f3 rest' =>
      refine ⟨f3 :: rest', ?_⟩
      simp only [VSIArchiveReader.GotoFirstFile, VSIArchiveReader.GotoNextFile,
        VSIArchiveReader.GetFileName, hfiles, hsep, if_true]

set_option maxRecDepth 100000

/-- C12 as stated fails: `demo.zip` is read while it holds the single entry
`old.txt`, which caches that content; the file is then replaced, so that its
reader yields `readme.txt`, `src/` and `src/main.c`. OpenArchiveFile with an
empty inner name returns no reader and a message that lists
`/ovl/demo.zip/old.txt` only. -/
theorem openArchiveFile_lists_cached_content :
    GetContentOfArchive
        (oneArchiveHandler "demo.zip".toList (readerOf [⟨"old.txt".toList, 1, 0⟩])) []
        "demo.zip".toList none =
      .ok (some ⟨[⟨"old.txt".toList, 1, false, 0⟩]⟩,
        [("demo.zip".toList, ⟨[⟨"old.txt".toList, 1, false, 0⟩]⟩)], none) ∧
    demoHandler.CreateReader "demo.zip".toList = some demoReader ∧
    OpenArchiveFile demoHandler
        [("demo.zip".toList, ⟨[⟨"old.txt".toList, 1, false, 0⟩]⟩)]
        "demo.zip".toList (some []) =
      .ok (none, [("demo.zip".toList, ⟨[⟨"old.txt".toList, 1, false, 0⟩]⟩)],
        some ("Support only 1 file in archive file demo.zip when no explicit in-archive filename is specified\nYou could try one of the following :\n  /ovl/demo.zip/old.txt\n".toList)) := by
  refine ⟨by decide, by decide, by decide⟩

/-- C12, amended: for every archive in which a further entry exists after the
first entry, or after the entry following a leading directory marker,
OpenArchiveFile with a NULL or empty inner name returns no reader, and its
message lists, in order, every entry of the content that GetContentOfArchive
gives for the archive, each as prefix, '/', archive path, '/', stored entry
name: the entries read from the reader when the archive was not cached, the
cached entries otherwise. -/
theorem openArchiveFile_ambiguous (h : VSIArchiveFilesystemHandler) (fl : FileList)
    (a : CStr) (r : VSIArchiveReader) (name : Option CStr) (f1 f2 : ReaderFile)
    (rest : List ReaderFile)
    (hr : h.CreateReader a = some r) (hn : name = none ∨ name = some [])
    (hfiles : r.files = f1 :: f2 :: rest)
    (hc : (entryOfFile f1).bIsDir = false ∨ rest ≠ []) :
    ∃ c fl', OpenArchiveFile h fl a name =
        .ok (none, fl', some ("Support only 1 file in archive file ".toList ++ a ++
          " when no explicit in-archive filename is specified".toList ++
          ("\nYou could try one of the following :\n".toList ++
            (c.entries.map (fun e => "  ".toList ++ h.GetPrefix ++ "/".toList ++ a ++
              "/".toList ++ e.fileName ++ "\n".toList)).flatten))) ∧
      fl'.find a = some c ∧
      (fl.find a = none → c.entries = r.files.map entryOfFile ∧ fl' = (a, c) :: fl) ∧
      (∀ c0, fl.find a = some c0 → c = c0 ∧ fl' = fl) := by
  rw [entryOfFile_bIsDir] at hc
  rw [openArchiveFile_no_name h fl a r name hr hn]
  obtain ⟨cur, hopen⟩ := openOnlyFile_ambiguous h fl a r f1 f2 rest hfiles hc
  rw [hopen]
  cases hm : fl.find a with
  | some c0 =>
    rw [getContent_hit h fl a _ c0 hm]
    refine ⟨c0, fl, ?_, hm, (fun hnone => by cases hnone), ?_⟩
    · simp only [ambiguousMessage, listingLines_eq]
    · intro c1 hc1
      cases hc1
      exact ⟨rfl, rfl⟩
  | none =>
    obtain ⟨r', hr'⟩ := getContent_fresh h fl a (some { files := r.files, cur := cur })
      { files := r.files, cur := cur } hm rfl (by simp [hfiles])
    rw [hr']
    refine ⟨_, _, ?_, find_cons_self fl a _, fun _ => ⟨rfl, rfl⟩, ?_⟩
    · simp only [ambiguousMessage, listingLines_eq]
    · intro c0 hc0
      cases hc0

/-- C12 amended, at `demo.zip`, not cached, opened with an empty inner name. -/
theorem openArchiveFile_ambiguous_witness :
    ∃ c fl', OpenArchiveFile demoHandler [] "demo.zip".toList (some []) =
        .ok (none, fl', some ("Support only 1 file in archive file ".toList ++
          "demo.zip".toList ++
          " when no explicit in-archive filename is specified".toList ++
          ("\nYou could try one of the following :\n".toList ++
            (c.entries.map (fun e => "  ".toList ++ demoHandler.GetPrefix ++ "/".toList ++
              "demo.zip".toList ++ "/".toList ++ e.fileName ++ "\n".toList)).flatten))) ∧
      fl'.find "demo.zip".toList = some c ∧
      (FileList.find [] "demo.zip".toList = none →
        c.entries = demoReader.files.map entryOfFile ∧
          fl' = ("demo.zip".toList, c) :: []) ∧
      (∀ c0, FileList.find [] "demo.zip".toList = some c0 → c = c0 ∧ fl' = []) :=
  openArchiveFile_ambiguous demoHandler [] "demo.zip".toList demoReader (some [])
    ⟨"readme.txt".toList, 100, 0⟩ ⟨"src/".toList, 0, 1⟩ [⟨"src/main.c".toList, 50, 2⟩]
    (by decide) (Or.inr rfl) rfl (Or.inl (by decide))

theorem findFile_total (h : VSIArchiveFilesystemHandler) (fl : FileList) (a : CStr)
    (name : Option CStr) : ∃ res fl', FindFileInArchive h fl a name = .ok (res, fl') := by
  cases name with
  | none => exact ⟨none, fl, rfl⟩
  | some n =>
    obtain ⟨res, fl', r', hg, _⟩ := getContent_total h fl a none
    cases res with
    | none => exact ⟨none, fl', by simp [FindFileInArchive, hg]⟩
    | some content =>
      exact ⟨findEntry n content.entries, fl', by simp [FindFileInArchive, hg]⟩

/-- C13 as stated fails: `a.zip` is cached by a GetContentOfArchive that was
handed a reader over its entry `f.txt`, and the handler's CreateReader returns
NULL. FindFileInArchive finds the entry `f.txt`, which is not a directory, yet
OpenArchiveFile returns no reader, and no reader was there to reposition. -/
theorem openArchiveFile_no_reader_created :
    runAll [] [(zipHandler, .getContentOfArchive "a.zip".toList
        (some (readerOf [⟨"f.txt".toList, 3, 0⟩])))] =
      .ok [("a.zip".toList, ⟨[⟨"f.txt".toList, 3, false, 0⟩]⟩)] ∧
    zipHandler.CreateReader "a.zip".toList = none ∧
    FindFileInArchive zipHandler [("a.zip".toList, ⟨[⟨"f.txt".toList, 3, false, 0⟩]⟩)]
        "a.zip".toList (some "f.txt".toList) =
      .ok (some ⟨"f.txt".toList, 3, false, 0⟩,
        [("a.zip".toList, ⟨[⟨"f.txt".toList, 3, false, 0⟩]⟩)]) ∧
    OpenArchiveFile zipHandler [("a.zip".toList, ⟨[⟨"f.txt".toList, 3, false, 0⟩]⟩)]
        "a.zip".toList (some "f.txt".toList) =
      .ok (none, [("a.zip".toList, ⟨[⟨"f.txt".toList, 3, false, 0⟩]⟩)], none) := by
  refine ⟨by decide, by decide, by decide, by decide⟩

/-- C13, amended: for a non-empty inner name, OpenArchiveFile returns no reader
when CreateReader returns NULL (and then does nothing else), when
FindFileInArchive finds no entry, or when the entry found is a directory;
otherwise, with `r` the reader CreateReader made, it returns `r` repositioned
by GotoFileOffset on the entry's offset token when that call succeeds and no
reader when it fails. -/
theorem openArchiveFile_named (h : VSIArchiveFilesystemHandler) (fl : FileList)
    (a name : CStr) (hne : name ≠ []) :
    ∃ res fl' out fl2, FindFileInArchive h fl a (some name) = .ok (res, fl') ∧
      OpenArchiveFile h fl a (some name) = .ok (out, fl2, none) ∧
      (h.CreateReader a = none → out = none ∧ fl2 = fl) ∧
      ((res = none ∨ ∃ e, res = some e ∧ e.bIsDir = true) → out = none) ∧
      (∀ r e, h.CreateReader a = some r → res = some e → e.bIsDir = false →
        fl2 = fl' ∧
        ((r.GotoFileOffset e.file_pos).1 = true →
          out = some (r.GotoFileOffset e.file_pos).2) ∧
        ((r.GotoFileOffset e.file_pos).1 = false → out = none)) := by
  obtain ⟨res, fl', hf⟩ := findFile_total h fl a (some name)
  have hnn : ¬ (some name = none ∨ some name = some []) := by
    rintro (h1 | h1)
    · cases h1
    · exact hne (Option.some.inj h1)
  cases hcr : h.CreateReader a with
  | none =>
    refine ⟨res, fl', none, fl, hf, ?_, (fun _ => ⟨rfl, rfl⟩), fun _ => rfl, ?_⟩
    · unfold OpenArchiveFile
      rw [hcr]
    · intro r e hr
      cases hr
  | some r0 =>
    have hopen : OpenArchiveFile h fl a (some name) =
        (match res with
        | none => .ok (none, fl', none)
        | some archiveEntry =>
          if archiveEntry.bIsDir then .ok (none, fl', none)
          else
            match r0.GotoFileOffset archiveEntry.file_pos with
            | (false, _) => .ok (none, fl', none)
            | (true, r) => .ok (some r, fl', none)) := by
      unfold OpenArchiveFile
      rw [hcr]
      simp only [if_neg hnn, hf]
      cases res <;> rfl
    cases res with
    | none =>
      refine ⟨none, fl', none, fl', hf, hopen, (fun hnone => by cases hnone), fun _ => rfl, ?_⟩
      intro r e _ he
      cases he
    | some e0 =>
      simp only at hopen
      cases hdir : e0.bIsDir with
      | true =>
        rw [hdir] at hopen
        refine ⟨some e0, fl', none, fl', hf, hopen, (fun hnone => by cases hnone), fun _ => rfl, ?_⟩
        intro r e _ he hd
        cases he
        rw [hdir] at hd
        cases hd
      | false =>
        rw [hdir] at hopen
        simp only [Bool.false_eq_true, if_false] at hopen
        cases hg : r0.GotoFileOffset e0.file_pos with
        | mk b r1 =>
          rw [hg] at hopen
          cases b with
          | false =>
            refine ⟨some e0, fl', none, fl', hf, hopen, (fun hnone => by cases hnone), fun _ => rfl, ?_⟩
            intro r e hr he _
            cases hr
            cases he
            rw [hg]
            exact ⟨rfl, (fun hb => by cases hb), fun _ => rfl⟩
          | true =>
            refine ⟨some e0, fl', some r1, fl', hf, hopen, (fun hnone => by cases hnone), ?_, ?_⟩
            · rintro (h1 | ⟨e, he, hd⟩)
              · cases h1
              · cases he
                rw [hdir] at hd
                cases hd
            · intro r e hr he _
              cases hr
              cases he
              rw [hg]
              exact ⟨rfl, fun _ => rfl, fun hb => by cases hb⟩

/-- C13 amended, at `demo.zip` and the inner name `src/main.c`. -/
theorem openArchiveFile_named_witness :
    ∃ res fl' out fl2,
      FindFileInArchive demoHandler [] "demo.zip".toList (some "src/main.c".toList) =
        .ok (res, fl') ∧
      OpenArchiveFile demoHandler [] "demo.zip".toList (some "src/main.c".toList) =
        .ok (out, fl2, none) ∧
      (demoHandler.CreateReader "demo.zip".toList = none → out = none ∧ fl2 = []) ∧
      ((res = none ∨ ∃ e, res = some e ∧ e.bIsDir = true) → out = none) ∧
      (∀ r e, demoHandler.CreateReader "demo.zip".toList = some r → res = some e →
        e.bIsDir = false →
        fl2 = fl' ∧
        ((r.GotoFileOffset e.file_pos).1 = true →
          out = some (r.GotoFileOffset e.file_pos).2) ∧
        ((r.GotoFileOffset e.file_pos).1 = false → out = none)) :=
  openArchiveFile_named demoHandler [] "demo.zip".toList "src/main.c".toList (by decide)

/-! ## C14: Stat -/

theorem castLong_of_lt (longBits n : Nat) (hn : n < 2 ^ (longBits - 1)) :
    castLong longBits n = (n : Int) := by
  have hle : 2 ^ (longBits - 1) ≤ 2 ^ longBits :=
    Nat.pow_le_pow_right (by decide) (Nat.sub_le _ _)
  have hmod : n % 2 ^ longBits = n := Nat.mod_eq_of_lt (Nat.lt_of_lt_of_le hn hle)
  unfold castLong
  rw [hmod, if_pos hn]

/-- Stat on a path that resolves to an archive and a non-empty inner path: the
outcome follows the one of FindFileInArchive, with the size passed through the
conversion to `long`. -/
theorem stat_inner (h : VSIArchiveFilesystemHandler) (longBits : Nat) (fl : FileList)
    (path a inner : CStr) (hs : SplitFilename h fl path = .ok (some (a, inner)))
    (hne : inner ≠ []) :
    ∃ res fl', FindFileInArchive h fl a (some inner) = .ok (res, fl') ∧
      (res = none → Stat h longBits fl path = .ok (-1, none, fl')) ∧
      (∀ e, res = some e → Stat h longBits fl path =
        .ok (0, some ⟨castLong longBits e.uncompressed_size,
          if e.bIsDir then .S_IFDIR else .S_IFREG⟩, fl')) := by
  obtain ⟨res, fl', hf⟩ := findFile_total h fl a (some inner)
  have hlen : inner.length ≠ 0 := fun h0 => hne (List.length_eq_zero.1 h0)
  refine ⟨res, fl', hf, ?_, ?_⟩
  · intro hres
    subst hres
    unfold Stat
    rw [hs]
    simp only [if_pos hlen, hf]
  · intro e hres
    subst hres
    unfold Stat
    rw [hs]
    simp only [if_pos hlen, hf]

theorem stat_unresolved (h : VSIArchiveFilesystemHandler) (longBits : Nat) (fl : FileList)
    (path : CStr) (hs : SplitFilename h fl path = .ok none) :
    Stat h longBits fl path = .ok (-1, none, fl) := by
  unfold Stat
  rw [hs]

/-- C14: Stat on `demo.zip` reports `readme.txt` as a file of 100 bytes and
`src` as a directory; for an entry of 2147483648 bytes and a `long` of 32 bits,
and for an entry of 9223372036854775808 bytes and a `long` of 64 bits, the cast
`(long)archiveEntry->uncompressed_size` of line 406 stores a negative size. -/
theorem stat_size_cast_to_long :
    Stat demoHandler 64 [] "/ovl/demo.zip/readme.txt".toList =
      .ok (0, some ⟨100, .S_IFREG⟩, [("demo.zip".toList, demoContent)]) ∧
    Stat demoHandler 64 [] "/ovl/demo.zip/src".toList =
      .ok (0, some ⟨0, .S_IFDIR⟩, [("demo.zip".toList, demoContent)]) ∧
    Stat (oneArchiveHandler "big.zip".toList (readerOf [⟨"huge.bin".toList, 2147483648, 0⟩]))
        32 [] "/ovl/big.zip/huge.bin".toList =
      .ok (0, some ⟨-2147483648, .S_IFREG⟩,
        [("big.zip".toList, ⟨[⟨"huge.bin".toList, 2147483648, false, 0⟩]⟩)]) ∧
    Stat (oneArchiveHandler "big.zip".toList
        (readerOf [⟨"huge.bin".toList, 9223372036854775808, 0⟩]))
        64 [] "/ovl/big.zip/huge.bin".toList =
      .ok (0, some ⟨-9223372036854775808, .S_IFREG⟩,
        [("big.zip".toList, ⟨[⟨"huge.bin".toList, 9223372036854775808, false, 0⟩]⟩)]) := by
  refine ⟨by decide, by decide, by decide, by decide⟩

/-! ## C15 and C16: ReadDir -/

theorem strstrFrom_char_none (c : Char) : ∀ (s : CStr) (i : Nat),
    strstrFrom [c] s i = none ↔ c ∉ s
  | [], i => by simp [strstrFrom]
  | a :: s, i => by
    unfold strstrFrom
    by_cases hac : a = c
    · simp [startsWith, hac]
    · have hca : ¬ c = a := fun e => hac e.symm
      simp [startsWith, hac, hca, strstrFrom_char_none c s (i + 1)]

theorem strstrFrom_char_some (c : Char) : ∀ (s : CStr) (i k : Nat),
    strstrFrom [c] s i = some k ↔
      ∃ pre post, s = pre ++ c :: post ∧ c ∉ pre ∧ k = i + pre.length
  | [], i, k => by simp [strstrFrom]
  | a :: s, i, k => by
    unfold strstrFrom
    by_cases hac : a = c
    · subst hac
      simp only [startsWith, beq_self_eq_true, Bool.and_self, if_true, Option.some.injEq]
      constructor
      · intro hk
        exact ⟨[], s, rfl, by simp, by simp [hk]⟩
      · rintro ⟨pre, post, hs, hpre, hk⟩
        cases pre with
        | nil => simp [hk]
        | cons b pre' =>
          simp only [List.cons_append, List.cons.injEq] at hs
          exact absurd (by simp [hs.1]) hpre
    · have hsw : startsWith (a :: s) [c] = false := by simp [startsWith, hac]
      rw [hsw]
      simp only [Bool.false_eq_true, if_false]
      rw [strstrFrom_char_some c s (i + 1) k]
      constructor
      · rintro ⟨pre, post, hs, hpre, hk⟩
        refine ⟨a :: pre, post, by simp [hs], ?_, by simp [hk]; omega⟩
        intro hm
        rcases List.mem_cons.1 hm with h1 | h1
        · exact hac h1.symm
        · exact hpre h1
      · rintro ⟨pre, post, hs, hpre, hk⟩
        cases pre with
        | nil =>
          simp only [List.nil_append, List.cons.injEq] at hs
          exact absurd hs.1 hac
        | cons b pre' =>
          simp only [List.cons_append, List.cons.injEq] at hs
          refine ⟨pre', post, hs.2, fun hm => hpre (List.mem_cons_of_mem _ hm), ?_⟩
          simp only [List.length_cons] at hk
          omega

theorem strchr_none (s : CStr) (c : Char) : strchr s c = none ↔ c ∉ s :=
  strstrFrom_char_none c s 0

theorem strchr_some (s : CStr) (c : Char) (k : Nat) :
    strchr s c = some k ↔ ∃ pre post, s = pre ++ c :: post ∧ c ∉ pre ∧ k = pre.length := by
  unfold strchr
  rw [strstrFrom_char_some]
  simp

theorem drop_append_cons (x tail : CStr) (s : Char) :
    (x ++ s :: tail).drop (x.length + 1) = tail := by
  induction x with
  | nil => rfl
  | cons a x ih => simp

theorem dropLast_append_cons (x tail : CStr) (s : Char) (ht : tail ≠ []) :
    (x ++ s :: tail).dropLast = x ++ s :: tail.dropLast := by
  induction x with
  | nil =>
    cases tail with
    | nil => exact absurd rfl ht
    | cons b t => rfl
  | cons a x ih =>
    cases x with
    | nil =>
      cases tail with
      | nil => exact absurd rfl ht
      | cons b t => rfl
    | cons b x' =>
      simp only [List.cons_append, List.dropLast_cons₂] at ih ⊢
      rw [ih]

theorem getElem?_append_cons (x tail : CStr) (s : Char) :
    (x ++ s :: tail)[x.length]? = some s ∧ (x ++ s :: tail)[x.length + 1]? = tail[0]? := by
  induction x with
  | nil => simp
  | cons a x ih => simpa using ih

theorem isSeparator_iff (c : Char) : isSeparator c = true ↔ c = '/' ∨ c = '\\' := by
  simp [isSeparator]

/-- Lines 499-519 on an entry name made of the sub-directory `x`, one
separator and a non-empty remainder. -/
theorem readDirEntry_append (x tail : CStr) (s : Char) (hx : x ≠ [])
    (hs : isSeparator s = true) (ht : tail ≠ []) :
    readDirEntry x (x ++ s :: tail) = listedTail tail := by
  obtain ⟨h0, h1⟩ := getElem?_append_cons x tail s
  have hlen : x.length ≠ 0 := fun h => hx (List.length_eq_zero.1 h)
  have hsw : startsWith (x ++ s :: tail) x = true := (startsWith_iff _ _).2 ⟨_, rfl⟩
  have hsep : (x ++ s :: tail)[x.length]? = some '/' ∨
      (x ++ s :: tail)[x.length]? = some '\\' := by
    rw [h0]
    rcases (isSeparator_iff s).1 hs with e | e
    · exact Or.inl (by rw [e])
    · exact Or.inr (by rw [e])
  have hnext : ((x ++ s :: tail)[x.length + 1]?).isSome = true := by
    rw [h1]
    cases tail with
    | nil => exact absurd rfl ht
    | cons b t => simp
  unfold readDirEntry listedTail
  rw [if_pos ⟨hlen, hsw, hsep, hnext⟩, drop_append_cons, dropLast_append_cons x tail s ht,
    drop_append_cons]

/-- An entry name listed for a non-empty sub-directory `x` is `x`, one
separator and a non-empty remainder. -/
theorem readDirEntry_shape (x n out : CStr) (hx : x ≠ [])
    (hr : readDirEntry x n = some out) :
    ∃ s tail, n = x ++ s :: tail ∧ isSeparator s = true ∧ tail ≠ [] := by
  have hlen : x.length ≠ 0 := fun h => hx (List.length_eq_zero.1 h)
  unfold readDirEntry at hr
  split at hr
  · rename_i hc
    obtain ⟨_, hsw, hsep, hnext⟩ := hc
    obtain ⟨r, hr'⟩ := (startsWith_iff _ _).1 hsw
    subst hr'
    cases r with
    | nil =>
      simp at hsep
    | cons s tail =>
      obtain ⟨h0, h1⟩ := getElem?_append_cons x tail s
      rw [h0] at hsep
      rw [h1] at hnext
      refine ⟨s, tail, rfl, ?_, ?_⟩
      · apply (isSeparator_iff s).2
        rcases hsep with e | e
        · exact Or.inl (Option.some.inj e)
        · exact Or.inr (Option.some.inj e)
      · intro ht
        subst ht
        simp at hnext
  · split at hr
    · rename_i hc
      exact absurd hc.1 hlen
    · cases hr

theorem length_append_cons_succ (pre post : CStr) (c : Char) :
    pre.length + 1 = (pre ++ c :: post).length ↔ post = [] := by
  rw [List.length_append, List.length_cons]
  constructor
  · intro h
    exact List.length_eq_zero.1 (by omega)
  · intro h
    rw [h]
    rfl

/-- The rule of lines 504-517 in closed form: a remainder is listed as it is
when it has no separator, without its last character when that is its only
'/', and without its last character when it has no '/' and that is its only
backslash. -/
theorem listedTail_eq_some (tail out : CStr) :
    listedTail tail = some out ↔
      ('/' ∉ tail ∧ '\\' ∉ tail ∧ out = tail) ∨
      (tail = out ++ ['/'] ∧ '/' ∉ out) ∨
      (tail = out ++ ['\\'] ∧ '/' ∉ out ∧ '\\' ∉ out) := by
  unfold listedTail
  cases hs : strchr tail '/' with
  | some k =>
    obtain ⟨pre, post, ht, hpre, hk⟩ := (strchr_some tail '/' k).1 hs
    subst hk
    simp only
    have hmem : '/' ∈ tail := by rw [ht]; simp
    by_cases hpost : post = []
    · subst hpost
      rw [if_pos (by rw [ht]; simp)]
      have hdl : tail.dropLast = pre := by rw [ht]; simp
      rw [hdl]
      constructor
      · intro ho
        cases ho
        exact Or.inr (Or.inl ⟨ht, hpre⟩)
      · rintro (⟨h1, _⟩ | ⟨h1, _⟩ | ⟨h1, h2, _⟩)
        · exact absurd hmem h1
        · rw [ht] at h1
          rw [List.append_inj_left' h1 rfl]
        · rw [h1] at hmem
          simp at hmem
          exact absurd hmem h2
    · have hne : ¬ pre.length + 1 = tail.length := by
        rw [ht]
        exact fun h => hpost ((length_append_cons_succ pre post '/').1 h)
      rw [if_neg hne]
      constructor
      · intro ho
        cases ho
      · rintro (⟨h1, _⟩ | ⟨h1, h2⟩ | ⟨h1, h2, _⟩)
        · exact absurd hmem h1
        · exfalso
          have hs2 : strchr tail '/' = some out.length :=
            (strchr_some tail '/' out.length).2 ⟨out, [], h1, h2, rfl⟩
          rw [hs] at hs2
          have hlen := Option.some.inj hs2
          apply hne
          rw [hlen, h1]
          simp
        · rw [h1] at hmem
          simp at hmem
          exact absurd hmem h2
  | none =>
    have hno : '/' ∉ tail := (strchr_none tail '/').1 hs
    simp only
    cases hb : strchr tail '\\' with
    | none =>
      have hnb : '\\' ∉ tail := (strchr_none tail '\\').1 hb
      simp only [Option.some.injEq]
      constructor
      · intro ho
        exact Or.inl ⟨hno, hnb, ho.symm⟩
      · rintro (⟨_, _, h3⟩ | ⟨h1, _⟩ | ⟨h1, _, _⟩)
        · exact h3.symm
        · exact absurd (by rw [h1]; simp) hno
        · exact absurd (by rw [h1]; simp) hnb
    | some k =>
      obtain ⟨pre, post, ht, hpre, hk⟩ := (strchr_some tail '\\' k).1 hb
      subst hk
      have hmem : '\\' ∈ tail := by rw [ht]; simp
      simp only
      by_cases hpost : post = []
      · subst hpost
        rw [if_pos (by rw [ht]; simp)]
        have hdl : tail.dropLast = pre := by rw [ht]; simp
        rw [hdl]
        have hnp : '/' ∉ pre := fun hm => hno (by rw [ht]; simp [hm])
        constructor
        · intro ho
          cases ho
          exact Or.inr (Or.inr ⟨ht, hnp, hpre⟩)
        · rintro (⟨_, h2, _⟩ | ⟨h1, _⟩ | ⟨h1, _, _⟩)
          · exact absurd hmem h2
          · exact absurd (by rw [h1]; simp) hno
          · rw [ht] at h1
            rw [List.append_inj_left' h1 rfl]
      · have hne : ¬ pre.length + 1 = tail.length := by
          rw [ht]
          exact fun h => hpost ((length_append_cons_succ pre post '\\').1 h)
        rw [if_neg hne]
        constructor
        · intro ho
          cases ho
        · rintro (⟨_, h2, _⟩ | ⟨h1, _⟩ | ⟨h1, _, h3⟩)
          · exact absurd hmem h2
          · exact absurd (by rw [h1]; simp) hno
          · exfalso
            have hs2 : strchr tail '\\' = some out.length :=
              (strchr_some tail '\\' out.length).2 ⟨out, [], h1, h3, rfl⟩
            rw [hb] at hs2
            have hlen := Option.some.inj hs2
            apply hne
            rw [hlen, h1]
            simp

theorem not_mem_of_no_separator (y : CStr) (hy : ∀ ch ∈ y, isSeparator ch = false) :
    '/' ∉ y ∧ '\\' ∉ y := by
  constructor
  · intro hm
    have := hy _ hm
    simp [isSeparator] at this
  · intro hm
    have := hy _ hm
    simp [isSeparator] at this

/-- For a non-empty sub-directory `x` and a name `y` without separators, the
entries that make the listing of `x` contain `y` are those named `x`, one
separator, `y`, with or without one more separator. -/
theorem readDirEntry_eq_some_iff (x y n : CStr) (hx : x ≠ []) (hy : y ≠ [])
    (hysep : ∀ ch ∈ y, isSeparator ch = false) :
    readDirEntry x n = some y ↔ n ∈ childNames x y := by
  obtain ⟨hy1, hy2⟩ := not_mem_of_no_separator y hysep
  constructor
  · intro hr
    obtain ⟨s, tail, hn, hs, ht⟩ := readDirEntry_shape x n y hx hr
    subst hn
    rw [readDirEntry_append x tail s hx hs ht] at hr
    have hs' := (isSeparator_iff s).1 hs
    rcases (listedTail_eq_some tail y).1 hr with ⟨_, _, h3⟩ | ⟨h1, _⟩ | ⟨h1, _, _⟩
    · subst h3
      rcases hs' with e | e <;> subst e <;> simp [childNames]
    · subst h1
      rcases hs' with e | e <;> subst e <;> simp [childNames]
    · subst h1
      rcases hs' with e | e <;> subst e <;> simp [childNames]
  · intro hm
    have key : ∀ (s : Char) (tail : CStr), isSeparator s = true →
        (tail = y ∨ tail = y ++ ['/'] ∨ tail = y ++ ['\\']) →
        readDirEntry x (x ++ s :: tail) = some y := by
      intro s tail hs htail
      have ht : tail ≠ [] := by
        rcases htail with e | e | e <;> rw [e] <;> simp [hy]
      rw [readDirEntry_append x tail s hx hs ht]
      apply (listedTail_eq_some tail y).2
      rcases htail with e | e | e
      · exact Or.inl ⟨by rw [e]; exact hy1, by rw [e]; exact hy2, e.symm⟩
      · exact Or.inr (Or.inl ⟨e, hy1⟩)
      · exact Or.inr (Or.inr ⟨e, hy1, hy2⟩)
    simp only [childNames, List.mem_cons, List.mem_singleton, List.not_mem_nil, or_false] at hm
    rcases hm with e | e | e | e | e | e
    · rw [e]; exact key '/' y (by decide) (Or.inl rfl)
    · rw [e]; exact key '\\' y (by decide) (Or.inl rfl)
    · rw [e]
      have := key '/' (y ++ ['/']) (by decide) (Or.inr (Or.inl rfl))
      simpa using this
    · rw [e]
      have := key '/' (y ++ ['\\']) (by decide) (Or.inr (Or.inr rfl))
      simpa using this
    · rw [e]
      have := key '\\' (y ++ ['/']) (by decide) (Or.inr (Or.inl rfl))
      simpa using this
    · rw [e]
      have := key '\\' (y ++ ['\\']) (by decide) (Or.inr (Or.inr rfl))
      simpa using this

theorem count_filterMap_entries (f : VSIArchiveEntry → Option CStr) (y : CStr) :
    ∀ (l : List VSIArchiveEntry),
      (l.filterMap f).count y = l.countP (fun e => decide (f e = some y))
  | [] => rfl
  | e :: l => by
    have ih := count_filterMap_entries f y l
    cases hf : f e with
    | none =>
      rw [List.filterMap_cons_none hf, List.countP_cons_of_neg, ih]
      simp [hf]
    | some v =>
      rw [List.filterMap_cons_some hf]
      by_cases hv : v = y
      · subst hv
        rw [List.count_cons_self, List.countP_cons_of_pos, ih]
        simp [hf]
      · rw [List.count_cons_of_ne (fun e => hv e.symm), List.countP_cons_of_neg, ih]
        simp [hf, hv]

theorem deeper_not_child (x y z : CStr) (hz : z ≠ []) :
    (x ++ '/' :: y ++ '/' :: z) ∉ childNames x y := by
  intro hm
  simp only [childNames, List.mem_cons, List.mem_singleton, List.not_mem_nil, or_false,
    List.append_assoc, List.cons_append, List.append_cancel_left_eq, List.cons.injEq,
    true_and] at hm
  rcases hm with e | e | e | e | e | e
  · simp at e
  · exact absurd e.1 (by decide)
  · exact hz e
  · exact absurd e.1 (by decide)
  · exact absurd e.1 (by decide)
  · exact absurd e.1 (by decide)

theorem readDir_of_content (h : VSIArchiveFilesystemHandler) (fl fl' : FileList)
    (path a sub : CStr) (c : VSIArchiveContent) (r' : Option VSIArchiveReader)
    (hs : SplitFilename h fl path = .ok (some (a, sub)))
    (hg : GetContentOfArchive h fl a none = .ok (some c, fl', r')) :
    ReadDir h fl path =
      .ok (c.entries.filterMap (fun e => readDirEntry sub e.fileName), fl') := by
  unfold ReadDir
  rw [hs]
  simp only [hg]

/-- C15: ReadDir of `demo.zip` lists `readme.txt` and `src` at the root and
`main.c` under `src`, as the rule of the specification does. For the stored
name `d/a\b/` and the sub-directory `d` the rule of the specification lists
nothing, its remainder `a\b/` having a separator before the trailing one, but
ReadDir lists `a\b`: lines 504-506 look for a backslash only when the
remainder has no '/'. -/
theorem readDir_mixed_separators :
    ReadDir demoHandler [] "/ovl/demo.zip".toList =
      .ok (["readme.txt".toList, "src".toList], [("demo.zip".toList, demoContent)]) ∧
    ReadDir demoHandler [] "/ovl/demo.zip/src".toList =
      .ok (["main.c".toList], [("demo.zip".toList, demoContent)]) ∧
    demoContent.entries.filterMap (fun e => listedNameSpec [] e.fileName) =
      ["readme.txt".toList, "src".toList] ∧
    demoContent.entries.filterMap (fun e => listedNameSpec "src".toList e.fileName) =
      ["main.c".toList] ∧
    ReadDir mixedHandler [] "/ovl/m.zip/d".toList =
      .ok (["a\\b".toList, "x".toList], [("m.zip".toList, mixedContent)]) ∧
    mixedContent.entries.filterMap (fun e => listedNameSpec "d".toList e.fileName) =
      ["x".toList] := by
  refine ⟨by decide, by decide, by decide, by decide, by decide, by decide⟩

/-- C16 as stated fails: the content of `deep.zip` has the entry
`src/lib/util.c`, yet ReadDir of `src` returns no name, so `lib` is not
included. -/
theorem readDir_deep_entry_not_listed :
    ReadDir deepHandler [] "/ovl/deep.zip/src".toList =
      .ok ([], [("deep.zip".toList, ⟨[⟨"src/lib/util.c".toList, 5, false, 0⟩]⟩)]) ∧
    "lib".toList ∉ ([] : List CStr) := by
  refine ⟨by decide, by decide⟩

/-- C16, amended: ReadDir with a non-empty sub-directory X returns a name Y
(non-empty, without separators) once for every entry of the content whose
stored name is X, one separator and Y, possibly followed by one more
separator, and for no other entry; an entry X/Y/Z adds nothing. So Y is
included exactly once when exactly one entry is named so, however many entries
share the X/Y/ start. -/
theorem readDir_child_once_per_entry (h : VSIArchiveFilesystemHandler) (fl fl' : FileList)
    (path a x y : CStr) (c : VSIArchiveContent) (r' : Option VSIArchiveReader)
    (hs : SplitFilename h fl path = .ok (some (a, x)))
    (hg : GetContentOfArchive h fl a none = .ok (some c, fl', r'))
    (hx : x ≠ []) (hy : y ≠ []) (hysep : ∀ ch ∈ y, isSeparator ch = false) :
    ∃ names, ReadDir h fl path = .ok (names, fl') ∧
      names.count y = c.entries.countP (fun e => decide (e.fileName ∈ childNames x y)) ∧
      ∀ z, z ≠ [] → (x ++ '/' :: y ++ '/' :: z) ∉ childNames x y := by
  refine ⟨_, readDir_of_content h fl fl' path a x c r' hs hg, ?_,
    fun z hz => deeper_not_child x y z hz⟩
  rw [count_filterMap_entries]
  congr 1
  funext e
  rw [decide_eq_decide]
  exact readDirEntry_eq_some_iff x y e.fileName hx hy hysep

/-- C16 amended, at `tree.zip`: `lib` is listed once under `src`, for the
entry `src/lib`, and the two files below `src/lib/` add nothing. -/
theorem readDir_child_once_per_entry_witness :
    ∃ names, ReadDir treeHandler [] "/ovl/tree.zip/src".toList =
        .ok (names, [("tree.zip".toList, treeContent)]) ∧
      names.count "lib".toList = treeContent.entries.countP
        (fun e => decide (e.fileName ∈ childNames "src".toList "lib".toList)) ∧
      ∀ z, z ≠ [] →
        ("src".toList ++ '/' :: "lib".toList ++ '/' :: z) ∉
          childNames "src".toList "lib".toList :=
  readDir_child_once_per_entry treeHandler [] [("tree.zip".toList, treeContent)]
    "/ovl/tree.zip/src".toList "tree.zip".toList "src".toList "lib".toList treeContent none
    (by decide) (by decide) (by decide) (by decide) (by decide)

/-! ## C17: the mutating operations -/

/-- C17: Unlink, Rename, Mkdir and Rmdir return -1 for every argument and
leave the cache as it is, also as steps of a sequence of operations. -/
theorem mutating_operations_fail (h : VSIArchiveFilesystemHandler) (fl : FileList)
    (p q : CStr) (nMode : Int) :
    Unlink fl p = (-1, fl) ∧ Rename fl p q = (-1, fl) ∧ Mkdir fl p nMode = (-1, fl) ∧
      Rmdir fl p = (-1, fl) ∧
      (Operation.unlink p).run h fl = .ok fl ∧ (Operation.rename p q).run h fl = .ok fl ∧
      (Operation.mkdir p nMode).run h fl = .ok fl ∧ (Operation.rmdir p).run h fl = .ok fl :=
  ⟨rfl, rfl, rfl, rfl, rfl, rfl, rfl, rfl⟩

/-! ## C19: SplitFilename is a function of the path, the cache keys and the file system -/

theorem loop_congr (h h2 : VSIArchiveFilesystemHandler) (fl fl2 : FileList) (s : CStr)
    (hext : h2.GetExtensions = h.GetExtensions)
    (hex : ∀ k, bArchiveFileExists h2 fl2 k = bArchiveFileExists h fl k) :
    ∀ (suffix : CStr) (i : Nat),
      SplitFilenameLoop h2 fl2 s i suffix = SplitFilenameLoop h fl s i suffix
  | [], i => by simp [SplitFilenameLoop]
  | c :: rest, i => by
    unfold SplitFilenameLoop
    rw [hext, hex, loop_congr h h2 fl fl2 s hext hex rest (i + 1)]

theorem splitFilename_congr (h h2 : VSIArchiveFilesystemHandler) (fl fl2 : FileList)
    (path : CStr) (hpre : h2.GetPrefix = h.GetPrefix)
    (hext : h2.GetExtensions = h.GetExtensions)
    (hex : ∀ k, bArchiveFileExists h2 fl2 k = bArchiveFileExists h fl k) :
    SplitFilename h2 fl2 path = SplitFilename h fl path := by
  have hskip : skipPrefix h2 path = skipPrefix h path := by
    unfold skipPrefix
    rw [hpre]
  unfold SplitFilename
  rw [hskip]
  cases skipPrefix h path with
  | ok s => exact loop_congr h h2 fl fl2 s hext hex s 0
  | outOfBounds => rfl
  | outOfFuel => rfl

/-- C19: when SplitFilename resolves a path to (archive, inner), the call
leaves the cache as it is, and a second call returns the same pair: on the
same cache, and on every cache that kept the keys it had and gained only keys
that the unchanged file system stats as files. The result does not depend on
CreateReader: no archive is read. -/
theorem splitFilename_idempotent (h : VSIArchiveFilesystemHandler) (fl : FileList)
    (path archive inner : CStr)
    (hr : SplitFilename h fl path = .ok (some (archive, inner))) :
    (Operation.splitFilename path).run h fl = .ok fl ∧
      (∀ fl2 : FileList,
        (∀ k, (fl.find k).isSome = true → (fl2.find k).isSome = true) →
        (∀ k, (fl2.find k).isSome = true →
          (fl.find k).isSome = true ∨ h.fsStat k = some false) →
        SplitFilename h fl2 path = .ok (some (archive, inner))) ∧
      (∀ h2 : VSIArchiveFilesystemHandler, h2.GetPrefix = h.GetPrefix →
        h2.GetExtensions = h.GetExtensions → h2.fsStat = h.fsStat →
        SplitFilename h2 fl path = .ok (some (archive, inner))) := by
  refine ⟨?_, ?_, ?_⟩
  · simp only [Operation.run, hr]
  · intro fl2 hkeep hnew
    rw [← hr]
    apply splitFilename_congr h h fl fl2 path rfl rfl
    intro k
    unfold bArchiveFileExists
    cases h2 : (fl2.find k).isSome with
    | true =>
      rcases hnew k h2 with h1 | h1
      · rw [h1]
      · rw [h1]
        simp
    | false =>
      cases h1 : (fl.find k).isSome with
      | true =>
        rw [hkeep k h1] at h2
        cases h2
      | false => rfl
  · intro h2 hpre hext hstat
    rw [← hr]
    apply splitFilename_congr h h2 fl fl path hpre hext
    intro k
    unfold bArchiveFileExists
    rw [hstat]

/-- C19, at the path `/ovl/demo.zip/src/../readme.txt`. -/
theorem splitFilename_idempotent_witness :
    (Operation.splitFilename "/ovl/demo.zip/src/../readme.txt".toList).run demoHandler [] =
        .ok [] ∧
      (∀ fl2 : FileList,
        (∀ k, (FileList.find [] k).isSome = true → (fl2.find k).isSome = true) →
        (∀ k, (fl2.find k).isSome = true →
          (FileList.find [] k).isSome = true ∨ demoHandler.fsStat k = some false) →
        SplitFilename demoHandler fl2 "/ovl/demo.zip/src/../readme.txt".toList =
          .ok (some ("demo.zip".toList, "readme.txt".toList))) ∧
      (∀ h2 : VSIArchiveFilesystemHandler, h2.GetPrefix = demoHandler.GetPrefix →
        h2.GetExtensions = demoHandler.GetExtensions → h2.fsStat = demoHandler.fsStat →
        SplitFilename h2 [] "/ovl/demo.zip/src/../readme.txt".toList =
          .ok (some ("demo.zip".toList, "readme.txt".toList))) :=
  splitFilename_idempotent demoHandler [] "/ovl/demo.zip/src/../readme.txt".toList
    "demo.zip".toList "readme.txt".toList (by decide)

/-! ## C20: what is left of `/../` after the collapse -/

theorem strstrFrom_none_absent (needle : CStr) : ∀ (s : CStr) (i : Nat),
    strstrFrom needle s i = none → ¬ needle <:+: s
  | [], i, hn => by
    unfold strstrFrom at hn
    by_cases he : needle = []
    · rw [if_pos he] at hn
      cases hn
    · intro hin
      exact he (List.eq_nil_of_infix_nil hin)
  | a :: s, i, hn => by
    unfold strstrFrom at hn
    by_cases hsw : startsWith (a :: s) needle = true
    · rw [if_pos hsw] at hn
      cases hn
    · rw [if_neg hsw] at hn
      intro hin
      rcases List.infix_cons_iff.1 hin with hp | hi
      · obtain ⟨t, ht⟩ := hp
        exact hsw ((startsWith_iff _ _).2 ⟨t, ht.symm⟩)
      · exact strstrFrom_none_absent needle s (i + 1) hn hi

theorem collapsePrevDir_result (n : Nat) : ∀ (fuel : Nat) (s r : CStr),
    collapsePrevDir n fuel s = .ok r →
    strstr r "/../".toList = none ∨ strstr r "/../".toList = some 0
  | 0, s, r, hr => by simp [collapsePrevDir] at hr
  | fuel + 1, s, r, hr => by
    unfold collapsePrevDir at hr
    cases hf : strstr s "/../".toList with
    | none =>
      rw [hf] at hr
      simp only [Run.ok.injEq] at hr
      rw [← hr]
      exact Or.inl hf
    | some k =>
      cases k with
      | zero =>
        rw [hf] at hr
        simp only [Run.ok.injEq] at hr
        rw [← hr]
        exact Or.inr hf
      | succ p =>
        rw [hf] at hr
        simp only at hr
        by_cases hb : p + 1 + n ≤ s.length
        · rw [if_pos hb] at hr
          by_cases hq : prevSlash s p = 0
          · rw [if_pos hq] at hr
            exact collapsePrevDir_result n fuel _ r hr
          · rw [if_neg hq] at hr
            exact collapsePrevDir_result n fuel _ r hr
        · rw [if_neg hb] at hr
          cases hr

theorem removeTrailingSlash_cases (s : CStr) :
    removeTrailingSlash s = s ∨ removeTrailingSlash s = s.dropLast := by
  unfold removeTrailingSlash
  cases s.getLast? with
  | none => exact Or.inl rfl
  | some c =>
    simp only
    split
    · exact Or.inr rfl
    · exact Or.inl rfl

theorem infix_parent_starts (r : CStr)
    (hr : strstr r "/../".toList = none ∨ strstr r "/../".toList = some 0)
    (hin : "/../".toList <:+: removeTrailingSlash r) :
    startsWith (removeTrailingSlash r) "/../".toList = true := by
  have hpre : removeTrailingSlash r <+: r := by
    rcases removeTrailingSlash_cases r with e | e
    · rw [e]
    · rw [e]
      exact List.dropLast_prefix r
  have hinr : "/../".toList <:+: r := List.IsInfix.trans hin hpre.isInfix
  rcases hr with h0 | h0
  · exact absurd hinr (strstrFrom_none_absent _ r 0 h0)
  · obtain ⟨_, _, hsw⟩ := strstrFrom_some _ r 0 0 h0
    simp only [Nat.sub_zero, List.drop_zero] at hsw
    obtain ⟨t, ht⟩ := (startsWith_iff _ _).1 hsw
    rcases removeTrailingSlash_cases r with e | e
    · rw [e]
      exact hsw
    · rw [e] at hin ⊢
      cases t with
      | nil =>
        rw [ht] at hin
        have hlen := hin.length_le
        simp at hlen
      | cons b t' =>
        apply (startsWith_iff _ _).2
        refine ⟨(b :: t').dropLast, ?_⟩
        rw [ht, List.dropLast_append_of_ne_nil _ (List.cons_ne_nil b t')]

/-- C20 as stated fails: `/vsizip/a.zip//../x` resolves to the inner path
`/../x`, which contains `/../`. -/
theorem splitFilename_leading_parent_slash_left :
    SplitFilename zipHandler [] "/vsizip/a.zip//../x".toList =
        .ok (some ("a.zip".toList, "/../x".toList)) ∧
      "/../".toList <:+: "/../x".toList := by
  refine ⟨by decide, ⟨[], "x".toList, rfl⟩⟩

/-- C20, amended: for every path that SplitFilename resolves, the inner path
returned contains `/../` only when it begins with `/../`; the collapse stops
at an occurrence at the very start and leaves the path as it is. -/
theorem splitFilename_parent_only_at_start (h : VSIArchiveFilesystemHandler)
    (fl : FileList) (path archive inner : CStr)
    (hr : SplitFilename h fl path = .ok (some (archive, inner)))
    (hin : "/../".toList <:+: inner) :
    startsWith inner "/../".toList = true := by
  obtain ⟨s, k, _, _, _, hf⟩ := splitFilename_sound h fl path archive inner hr
  unfold fileInArchive at hf
  cases hrest : s.drop (k + matchExtension h.GetExtensions (s.drop k)) with
  | nil =>
    rw [hrest] at hf
    simp only [Run.ok.injEq] at hf
    rw [← hf] at hin
    have hlen := hin.length_le
    simp at hlen
  | cons c0 raw =>
    rw [hrest] at hf
    simp only at hf
    cases hc : collapsePrevDir (matchExtension h.GetExtensions (s.drop k))
        (raw.length + 1) raw with
    | ok r =>
      rw [hc] at hf
      simp only [Run.ok.injEq] at hf
      rw [← hf] at hin ⊢
      exact infix_parent_starts r (collapsePrevDir_result _ _ raw r hc) hin
    | outOfBounds => rw [hc] at hf; cases hf
    | outOfFuel => rw [hc] at hf; cases hf

/-- C20 amended, at the path `/vsizip/a.zip//../x/../y`. -/
theorem splitFilename_parent_only_at_start_witness :
    SplitFilename zipHandler [] "/vsizip/a.zip//../x/../y".toList =
        .ok (some ("a.zip".toList, "/../x/../y".toList)) ∧
      startsWith "/../x/../y".toList "/../".toList = true :=
  ⟨by decide,
    splitFilename_parent_only_at_start zipHandler [] "/vsizip/a.zip//../x/../y".toList
      "a.zip".toList "/../x/../y".toList (by decide) ⟨[], "x/../y".toList, rfl⟩⟩

/-! ## The listing rule of ReadDir against the rule of the specification -/

theorem all_not_separator_iff (s : CStr) :
    s.all (fun c => !isSeparator c) = true ↔ '/' ∉ s ∧ '\\' ∉ s := by
  rw [List.all_eq_true]
  constructor
  · intro hall
    constructor
    · intro hm
      have := hall _ hm
      simp [isSeparator] at this
    · intro hm
      have := hall _ hm
      simp [isSeparator] at this
  · rintro ⟨h1, h2⟩ c hc
    have hc1 : c ≠ '/' := fun e => h1 (e ▸ hc)
    have hc2 : c ≠ '\\' := fun e => h2 (e ▸ hc)
    simp [isSeparator, hc1, hc2]

theorem dropTrailingSeparator_concat (init : CStr) (c : Char) :
    dropTrailingSeparator (init ++ [c]) = if isSeparator c then init else init ++ [c] := by
  unfold dropTrailingSeparator
  rw [List.getLast?_concat]
  simp

/-- On a remainder that does not combine a backslash with a '/' at its end,
lines 504-517 list what the specification's rule lists. -/
theorem listedTail_eq_spec (tail : CStr) (ht : tail ≠ [])
    (hmix : ¬ ('\\' ∈ tail ∧ tail.getLast? = some '/')) :
    listedTail tail =
      (if (dropTrailingSeparator tail).all (fun c => !isSeparator c) then
        some (dropTrailingSeparator tail) else none) := by
  obtain ⟨init, c, hsplit⟩ : ∃ init c, tail = init ++ [c] := by
    rcases List.eq_nil_or_concat tail with h0 | ⟨init, c, hc⟩
    · exact absurd h0 ht
    · exact ⟨init, c, by rw [hc, List.concat_eq_append]⟩
  subst hsplit
  have hlast : (init ++ [c]).getLast? = some c := List.getLast?_concat init
  apply Option.ext
  intro out
  simp only [Option.mem_def]
  rw [listedTail_eq_some, dropTrailingSeparator_concat]
  by_cases hc1 : c = '/'
  · subst hc1
    have hnb : '\\' ∉ init := fun hm => hmix ⟨by simp [hm], hlast⟩
    have hsep : isSeparator '/' = true := by decide
    simp only [hsep, if_true, all_not_separator_iff]
    constructor
    · rintro (⟨h1, _⟩ | ⟨h1, h2⟩ | ⟨h1, _⟩)
      · exact absurd (by simp) h1
      · have := List.append_inj_left' h1 rfl
        subst this
        rw [if_pos ⟨h2, hnb⟩]
      · have := List.append_inj_right' h1 rfl
        simp at this
    · intro hspec
      split at hspec
      · rename_i hcond
        cases hspec
        exact Or.inr (Or.inl ⟨rfl, hcond.1⟩)
      · cases hspec
  · by_cases hc2 : c = '\\'
    · subst hc2
      have hsep : isSeparator '\\' = true := by decide
      simp only [hsep, if_true, all_not_separator_iff]
      constructor
      · rintro (⟨_, h2, _⟩ | ⟨h1, _⟩ | ⟨h1, h2, h3⟩)
        · exact absurd (by simp) h2
        · have := List.append_inj_right' h1 rfl
          simp at this
        · have := List.append_inj_left' h1 rfl
          subst this
          rw [if_pos ⟨h2, h3⟩]
      · intro hspec
        split at hspec
        · rename_i hcond
          cases hspec
          exact Or.inr (Or.inr ⟨rfl, hcond.1, hcond.2⟩)
        · cases hspec
    · have hsep : isSeparator c = false := by simp [isSeparator, hc1, hc2]
      simp only [hsep, Bool.false_eq_true, if_false, all_not_separator_iff]
      constructor
      · rintro (⟨h1, h2, h3⟩ | ⟨h1, _⟩ | ⟨h1, _⟩)
        · subst h3
          rw [if_pos ⟨h1, h2⟩]
        · have := List.append_inj_right' h1 rfl
          simp at this
          exact absurd this hc1
        · have := List.append_inj_right' h1 rfl
          simp at this
          exact absurd this hc2
      · intro hspec
        split at hspec
        · rename_i hcond
          cases hspec
          exact Or.inl ⟨hcond.1, hcond.2, rfl⟩
        · cases hspec

/-- On every entry name that does not combine a backslash with a '/' at its
end, lines 499-527 list what the specification's rule lists. -/
theorem readDirEntry_eq_spec (sub name : CStr)
    (hmix : ¬ ('\\' ∈ name ∧ name.getLast? = some '/')) :
    readDirEntry sub name = listedNameSpec sub name := by
  by_cases hsub : sub = []
  · subst hsub
    unfold readDirEntry listedNameSpec
    simp only [List.length_nil, ne_eq, not_true_eq_false, false_and, if_false, true_and,
      if_true, strchr_none, all_not_separator_iff]
  · by_cases hshape : ∃ s tail, name = sub ++ s :: tail ∧ isSeparator s = true ∧ tail ≠ []
    · obtain ⟨s, tail, hn, hs, ht⟩ := hshape
      subst hn
      have hmix' : ¬ ('\\' ∈ tail ∧ tail.getLast? = some '/') := by
        rintro ⟨h1, h2⟩
        apply hmix
        refine ⟨by simp [h1], ?_⟩
        rw [List.getLast?_append_of_ne_nil sub (List.cons_ne_nil s tail)]
        cases tail with
        | nil => exact absurd rfl ht
        | cons c rest =>
          rw [List.getLast?_cons_cons]
          exact h2
      rw [readDirEntry_append sub tail s hsub hs ht, listedTail_eq_spec tail ht hmix']
      unfold listedNameSpec
      rw [if_neg hsub, List.drop_left]
      cases tail with
      | nil => exact absurd rfl ht
      | cons c rest =>
        have hsw : startsWith (sub ++ s :: c :: rest) sub = true :=
          (startsWith_iff _ _).2 ⟨_, rfl⟩
        simp only [hsw, hs, Bool.and_self, Bool.true_and]
    · have hnone : readDirEntry sub name = none := by
        cases hr : readDirEntry sub name with
        | none => rfl
        | some out => exact absurd (readDirEntry_shape sub name out hsub hr) hshape
      rw [hnone]
      unfold listedNameSpec
      rw [if_neg hsub]
      split
      · rename_i sep c rest hdrop
        by_cases hcond : startsWith name sub = true ∧ isSeparator sep = true
        · exfalso
          apply hshape
          obtain ⟨t, ht⟩ := (startsWith_iff _ _).1 hcond.1
          rw [ht, List.drop_left] at hdrop
          exact ⟨sep, c :: rest, by rw [ht, hdrop], hcond.2, List.cons_ne_nil _ _⟩
        · have : (startsWith name sub && isSeparator sep) = false := by
            cases h1 : startsWith name sub <;> cases h2 : isSeparator sep <;> simp_all
          simp only [this, Bool.false_and, Bool.false_eq_true, if_false]
      · rfl

/-- ReadDir returns, entry by entry, the names of the specification's rule
when no entry name of the content combines a backslash with a '/' at its
end. -/
theorem readDir_eq_spec (h : VSIArchiveFilesystemHandler) (fl fl' : FileList)
    (path a sub : CStr) (c : VSIArchiveContent) (r' : Option VSIArchiveReader)
    (hs : SplitFilename h fl path = .ok (some (a, sub)))
    (hg : GetContentOfArchive h fl a none = .ok (some c, fl', r'))
    (hmix : ∀ e ∈ c.entries, ¬ ('\\' ∈ e.fileName ∧ e.fileName.getLast? = some '/')) :
    ReadDir h fl path =
      .ok (c.entries.filterMap (fun e => listedNameSpec sub e.fileName), fl') := by
  rw [readDir_of_content h fl fl' path a sub c r' hs hg]
  congr 2
  apply List.filterMap_congr
  intro e he
  exact readDirEntry_eq_spec sub e.fileName (hmix e he)

/-! ## C21: the names ReadDir returns are found by FindFileInArchive -/

theorem findFile_cached (h : VSIArchiveFilesystemHandler) (fl : FileList) (a name : CStr)
    (c : VSIArchiveContent) (hc : fl.find a = some c) :
    FindFileInArchive h fl a (some name) = .ok (findEntry name c.entries, fl) := by
  unfold FindFileInArchive
  simp only [getContent_hit h fl a none c hc]

theorem findEntry_of_mem (name : CStr) (l : List VSIArchiveEntry) (e : VSIArchiveEntry)
    (he : e ∈ l) (hn : e.fileName = name) : ∃ e', findEntry name l = some e' := by
  have hs : (findEntry name l).isSome = true := (findEntry_isSome name l).2 ⟨e, he, hn⟩
  cases hf : findEntry name l with
  | none =>
    rw [hf] at hs
    cases hs
  | some e' => exact ⟨e', rfl⟩

/-- The stored name of an entry that the listing of `sub` turns into `n`, when
stored names have no backslash and no trailing separator: `n` itself for the
root, and `sub`, a '/', `n` otherwise. -/
theorem readDirEntry_stored_name (sub name n : CStr) (hb : '\\' ∉ name)
    (ht : noTrailingSeparator name) (hr : readDirEntry sub name = some n) :
    name = (if sub = [] then n else sub ++ '/' :: n) := by
  by_cases hsub : sub = []
  · subst hsub
    rw [if_pos rfl]
    unfold readDirEntry at hr
    simp only [List.length_nil, ne_eq, not_true_eq_false, false_and, if_false, true_and]
      at hr
    split at hr
    · exact (Option.some.inj hr)
    · cases hr
  · rw [if_neg hsub]
    obtain ⟨s, tail, hn, hs, htail⟩ := readDirEntry_shape sub name n hsub hr
    subst hn
    rw [readDirEntry_append sub tail s hsub hs htail] at hr
    have hs' : s = '/' := by
      rcases (isSeparator_iff s).1 hs with e | e
      · exact e
      · exact absurd (by rw [e]; simp) hb
    subst hs'
    have hlast : (sub ++ '/' :: tail).getLast? = tail.getLast? := by
      rw [List.getLast?_append_of_ne_nil sub (List.cons_ne_nil '/' tail)]
      cases tail with
      | nil => exact absurd rfl htail
      | cons c rest => rw [List.getLast?_cons_cons]
    rcases (listedTail_eq_some tail n).1 hr with ⟨_, _, h3⟩ | ⟨h1, _⟩ | ⟨h1, _, _⟩
    · rw [h3]
    · exfalso
      have := ht '/' (by rw [hlast, h1, List.getLast?_concat])
      exact absurd this (by decide)
    · exfalso
      exact hb (by rw [h1]; simp)

/-- C21: for a content built from raw names without backslash that do not end
with two separators, every name `n` that ReadDir returns for the sub-directory
`sub` is found by FindFileInArchive under `sub`, a '/', `n`, or under `n` when
`sub` is empty; and Stat returns 0 on every path that resolves to that inner
name, when it is not empty. -/
theorem readDir_names_found (h : VSIArchiveFilesystemHandler) (fl fl' : FileList)
    (path a sub : CStr) (c : VSIArchiveContent) (r' : Option VSIArchiveReader)
    (files : List ReaderFile)
    (hs : SplitFilename h fl path = .ok (some (a, sub)))
    (hg : GetContentOfArchive h fl a none = .ok (some c, fl', r'))
    (hraw : c.entries = files.map entryOfFile)
    (hnames : ∀ f ∈ files, '\\' ∉ f.fileName ∧ endsWithTwoSeparators f.fileName = false) :
    ∃ names, ReadDir h fl path = .ok (names, fl') ∧
      ∀ n ∈ names, ∃ e,
        FindFileInArchive h fl' a (some (if sub = [] then n else sub ++ '/' :: n)) =
          .ok (some e, fl') ∧
        ∀ (longBits : Nat) (path2 : CStr),
          SplitFilename h fl' path2 =
            .ok (some (a, if sub = [] then n else sub ++ '/' :: n)) →
          (if sub = [] then n else sub ++ '/' :: n) ≠ [] →
          ∃ buf, Stat h longBits fl' path2 = .ok (0, some buf, fl') := by
  refine ⟨_, readDir_of_content h fl fl' path a sub c r' hs hg, ?_⟩
  intro n hn
  obtain ⟨e, he, hre⟩ := List.mem_filterMap.1 hn
  have hcached : fl'.find a = some c := by
    obtain ⟨res, fl0, r0, hg0, _, _, hfind⟩ := getContent_total h fl a none
    rw [hg] at hg0
    cases hg0
    exact hfind c rfl
  have hstored : '\\' ∉ e.fileName ∧ noTrailingSeparator e.fileName := by
    rw [hraw] at he
    obtain ⟨f, hf, hfe⟩ := List.mem_map.1 he
    obtain ⟨hb, htwo⟩ := hnames f hf
    obtain ⟨_, _, h3, h4⟩ := entryOfFile_name f
    rw [← hfe]
    refine ⟨fun hm => ?_, h4 htwo⟩
    exact h3 (fun ch hch e0 => hb (e0 ▸ hch)) _ hm rfl
  have hname := readDirEntry_stored_name sub e.fileName n hstored.1 hstored.2 hre
  obtain ⟨e', he'⟩ := findEntry_of_mem _ c.entries e he hname
  have hfind : FindFileInArchive h fl' a (some (if sub = [] then n else sub ++ '/' :: n)) =
      .ok (some e', fl') := by
    rw [findFile_cached h fl' a _ c hcached, he']
  refine ⟨e', hfind, ?_⟩
  intro longBits path2 hs2 hne
  obtain ⟨res, fl2, hf2, _, hsome⟩ := stat_inner h longBits fl' path2 a _ hs2 hne
  rw [hfind] at hf2
  cases hf2
  exact ⟨_, hsome e' rfl⟩

/-- C21, at the listing of `src` in `demo.zip`. -/
theorem readDir_names_found_witness :
    ∃ names, ReadDir demoHandler [] "/ovl/demo.zip/src".toList =
        .ok (names, [("demo.zip".toList, demoContent)]) ∧
      ∀ n ∈ names, ∃ e,
        FindFileInArchive demoHandler [("demo.zip".toList, demoContent)] "demo.zip".toList
            (some (if "src".toList = [] then n else "src".toList ++ '/' :: n)) =
          .ok (some e, [("demo.zip".toList, demoContent)]) ∧
        ∀ (longBits : Nat) (path2 : CStr),
          SplitFilename demoHandler [("demo.zip".toList, demoContent)] path2 =
            .ok (some ("demo.zip".toList,
              if "src".toList = [] then n else "src".toList ++ '/' :: n)) →
          (if "src".toList = [] then n else "src".toList ++ '/' :: n) ≠ [] →
          ∃ buf, Stat demoHandler longBits [("demo.zip".toList, demoContent)] path2 =
            .ok (0, some buf, [("demo.zip".toList, demoContent)]) :=
  readDir_names_found demoHandler [] [("demo.zip".toList, demoContent)]
    "/ovl/demo.zip/src".toList "demo.zip".toList "src".toList demoContent none
    demoReader.files (by decide) (by decide) (by decide) (by decide)

end VSIArchive
